import Mathlib

/-!
Verification of the task-coordination core of gemini-code-flow-v2.

The embedding translates, from the TypeScript sources:
  * the task data model (src/src/types/index.ts),
  * the task queue (src/unnamed/part_002, class TaskQueue),
  * the two orchestrator variants in src/src/core/orchestrator.ts
    (the API-client variant, lines 1-381, called V1 below, and the
    CLI variant, lines 382-1709, called V2 below),
  * the delegation parser of the CLI orchestrator,
  * the memory manager (src/src/core/memory-manager.ts, first variant,
    lines 1-180, the one whose `store` runs `cleanup`).

JavaScript `Map`s are modelled as insertion-ordered association lists;
the queue's `priorityQueue` array holds references to the very objects
stored in the map, so it is modelled as the list of task ids read back
through the map (heap-style aliasing).  Dates are epoch milliseconds as
`Nat`.  Agent modes and categories are the strings the code compares.
-/

namespace GeminiFlow

/-- `AgentStatus` from src/src/types/index.ts:
'pending' | 'running' | 'completed' | 'failed'. -/
inductive AgentStatus where
  | pending
  | running
  | completed
  | failed
deriving DecidableEq, Repr

/-- Task priority from src/src/types/index.ts: 'low' | 'medium' | 'high'. -/
inductive Priority where
  | low
  | medium
  | high
deriving DecidableEq, Repr

/-- The `Task` record (src/src/types/index.ts plus the fields the
orchestrators use: `createdAt` from the CLI variant, `retryCount` models
`task.retryCount || 0` of orchestrator V1). -/
structure Task where
  id : String
  description : String
  mode : String
  priority : Priority
  dependencies : List String
  status : AgentStatus
  createdAt : Nat
  retryCount : Nat
deriving DecidableEq, Repr

/-- JS `Map.prototype.get` on an insertion-ordered association list. -/
def mapGet {α : Type} : List (String × α) → String → Option α
  | [], _ => none
  | (k, v) :: rest, key => if k = key then some v else mapGet rest key

/-- JS `Map.prototype.set`: overwrite in place when the key exists
(keeping its position), append otherwise. -/
def mapSet {α : Type} : List (String × α) → String → α → List (String × α)
  | [], key, v => [(key, v)]
  | (k, w) :: rest, key, v =>
    if k = key then (key, v) :: rest else (k, w) :: mapSet rest key v

/-- JS `Map.prototype.delete`. -/
def mapDelete {α : Type} : List (String × α) → String → List (String × α)
  | [], _ => []
  | (k, w) :: rest, key =>
    if k = key then rest else (k, w) :: mapDelete rest key

/-- JS regex `\s` (the ASCII whitespace the texts at hand contain). -/
def isSpaceChar (c : Char) : Bool :=
  c = ' ' || c = '\t' || c = '\n' || c = '\r' || c = '\x0b' || c = '\x0c'

/-- JS regex `\w` (ASCII letters, digits, underscore). -/
def isWordChar (c : Char) : Bool :=
  c.isAlphanum || c = '_'

/-- JS `String.prototype.trim` (computable on the character list). -/
def trimStr (s : String) : String :=
  String.mk (((s.data.dropWhile isSpaceChar).reverse.dropWhile
    isSpaceChar).reverse)

/-- JS `String.prototype.toLowerCase` (computable on the character list). -/
def toLowerStr (s : String) : String :=
  String.mk (s.data.map Char.toLower)

/-- JS `String.prototype.substring(0, n)` (computable on the character
list). -/
def takeStr (s : String) (n : Nat) : String :=
  String.mk (s.data.take n)

/-- `priorityOrder = { high: 3, medium: 2, low: 1 }`
(TaskQueue.sortByPriority, src/unnamed/part_002). -/
def priorityOrder : Priority → Nat
  | .high => 3
  | .medium => 2
  | .low => 1

/-- Stable insertion for a descending sort by a `Nat` key: the new element
goes after every element whose key is at least as large.  Any stable sort
(JS `Array.prototype.sort` is stable) with comparator `key b - key a`
produces exactly the order this insertion builds. -/
def insKeyDesc {α : Type} (key : α → Nat) (x : α) : List α → List α
  | [] => [x]
  | y :: ys => if key x ≤ key y then y :: insKeyDesc key x ys else x :: y :: ys

/-- Stable descending sort by a `Nat` key (insertion sort, stable). -/
def sortKeyDesc {α : Type} (key : α → Nat) (l : List α) : List α :=
  l.foldl (fun acc x => insKeyDesc key x acc) []

/-- The queue state of class `TaskQueue` (src/unnamed/part_002):
`tasks` is the id-indexed `Map`; `priorityQueue` holds ids, read back
through `tasks`, because the JS array aliases the map's objects. -/
structure TaskQueue where
  tasks : List (String × Task)
  priorityQueue : List String
deriving DecidableEq, Repr

def TaskQueue.empty : TaskQueue := ⟨[], []⟩

/-- The sort key of an id in the priority queue: the referenced task's
priority.  In the JS code the array holds the object itself, so the
lookup cannot miss; a missing id (unreachable in reachable states) gets
key 0. -/
def priorityKey (tasks : List (String × Task)) (id : String) : Nat :=
  match mapGet tasks id with
  | some t => priorityOrder t.priority
  | none => 0

/-- `TaskQueue.sortByPriority` (src/unnamed/part_002 lines 67-73). -/
def TaskQueue.sortByPriority (q : TaskQueue) : TaskQueue :=
  { q with priorityQueue := sortKeyDesc (priorityKey q.tasks) q.priorityQueue }

/-- `TaskQueue.add` (src/unnamed/part_002 lines 15-19): map set, push,
then sort. -/
def TaskQueue.add (q : TaskQueue) (t : Task) : TaskQueue :=
  TaskQueue.sortByPriority
    { tasks := mapSet q.tasks t.id t,
      priorityQueue := q.priorityQueue ++ [t.id] }

/-- `TaskQueue.areDependenciesMet` (src/unnamed/part_002 lines 57-62):
every dependency id resolves to a task whose status is completed.
Orchestrator V1's `areDependenciesMet` (orchestrator.ts lines 280-291)
and V2's (lines 1145-1153) are the same test against the queue's map. -/
def areDependenciesMet (tasks : List (String × Task)) (t : Task) : Bool :=
  t.dependencies.all fun depId =>
    match mapGet tasks depId with
    | some dep => dep.status == AgentStatus.completed
    | none => false

/-- The scan inside `TaskQueue.getNext` (src/unnamed/part_002 lines
26-35): first id in priority order whose task is pending with met
dependencies; returns that task and the queue with the id spliced out.
Ids missing from the map are skipped (impossible in the JS code, where
the array holds the object itself). -/
def getNextAux (tasks : List (String × Task)) :
    List String → Option (Task × List String)
  | [] => none
  | id :: rest =>
    match mapGet tasks id with
    | some t =>
      if t.status == AgentStatus.pending && areDependenciesMet tasks t then
        some (t, rest)
      else
        match getNextAux tasks rest with
        | some (t', rest') => some (t', id :: rest')
        | none => none
    | none =>
      match getNextAux tasks rest with
      | some (t', rest') => some (t', id :: rest')
      | none => none

/-- `TaskQueue.getNext` (src/unnamed/part_002 lines 24-38): splice the
found task out of the priority queue and set its status to running (a
mutation of the shared object, so the map entry changes too). -/
def TaskQueue.getNext (q : TaskQueue) : Option Task × TaskQueue :=
  match getNextAux q.tasks q.priorityQueue with
  | none => (none, q)
  | some (t, rest) =>
    let t' := { t with status := AgentStatus.running }
    (some t', { tasks := mapSet q.tasks t'.id t', priorityQueue := rest })

/-- `TaskQueue.getById` (src/unnamed/part_002 lines 43-45). -/
def TaskQueue.getById (q : TaskQueue) (id : String) : Option Task :=
  mapGet q.tasks id

/-- `TaskQueue.size` (src/unnamed/part_002 lines 50-52): pending entries
of the priority queue. -/
def TaskQueue.size (q : TaskQueue) : Nat :=
  (q.priorityQueue.filter fun id =>
    match mapGet q.tasks id with
    | some t => t.status == AgentStatus.pending
    | none => false).length

/-- `TaskQueue.getAllTasks` (src/unnamed/part_002 lines 78-80):
the map's values in insertion order. -/
def TaskQueue.getAllTasks (q : TaskQueue) : List Task :=
  q.tasks.map Prod.snd

/-- The removal test of `TaskQueue.cleanup`: completed and created
before the cutoff. -/
def shouldCleanup (cutoff : Nat) (t : Task) : Bool :=
  t.status == AgentStatus.completed && t.createdAt < cutoff

/-- Splice out the first occurrence of an id
(`findIndex` + `splice(index, 1)` in `TaskQueue.cleanup`). -/
def removeFirst : List String → String → List String
  | [], _ => []
  | x :: xs, id => if x = id then xs else x :: removeFirst xs id

/-- `TaskQueue.cleanup` (src/unnamed/part_002 lines 85-97): delete every
completed task older than `now - maxAge` from the map and splice its id
out of the priority queue. -/
def TaskQueue.cleanup (q : TaskQueue) (now maxAge : Nat) : TaskQueue :=
  let cutoff := now - maxAge
  let removed := (q.tasks.filter fun p => shouldCleanup cutoff p.2).map Prod.fst
  { tasks := q.tasks.filter fun p => !shouldCleanup cutoff p.2,
    priorityQueue := removed.foldl removeFirst q.priorityQueue }

/-- A worker execution record (interface `Agent`, src/src/types/index.ts).
`taskId` stands for the closure reference each orchestrator's
`spawnAgent` keeps from the agent to its task. -/
structure Agent where
  id : String
  mode : String
  taskId : String
  status : AgentStatus
deriving DecidableEq, Repr

/-- The orchestrator state shared by both variants: the task queue, the
agents map (insertion order), the `maxConcurrentAgents` bound
(`config.maxAgents || 10`), and a counter supplying the fresh agent ids
the code builds from `Date.now()` plus randomness. -/
structure OrchState where
  queue : TaskQueue
  agents : List Agent
  maxConcurrentAgents : Nat
  agentCounter : Nat
deriving DecidableEq, Repr

/-- `Array.from(this.agents.values()).filter(a => a.status === 'running').length`. -/
def activeAgents (s : OrchState) : Nat :=
  (s.agents.filter fun a => a.status == AgentStatus.running).length

/-- The modes of the currently running agents
(`getParallelizableTasks`, orchestrator.ts lines 1163-1165). -/
def runningModes (s : OrchState) : List String :=
  (s.agents.filter fun a => a.status == AgentStatus.running).map Agent.mode

/-- The JS mutation `task.status = x` on the shared task object: the
map's entry changes; a task no longer in the map is unaffected. -/
def updateTaskStatus (q : TaskQueue) (id : String) (st : AgentStatus) :
    TaskQueue :=
  match mapGet q.tasks id with
  | some t => { q with tasks := mapSet q.tasks id { t with status := st } }
  | none => q

/-- Orchestrator V1 `addTask` (orchestrator.ts lines 89-106): reject an
empty or whitespace-only description (`!task.description ||
task.description.trim().length === 0` both collapse to `trim = ""`),
reject a falsy (empty) mode, otherwise insert and emit `taskAdded`. -/
def addTaskV1 (q : TaskQueue) (t : Task) : Except String (TaskQueue × List String) :=
  if trimStr t.description = "" then
    Except.error ("Task description cannot be empty")
  else if t.mode = "" then
    Except.error ("Task mode is required")
  else
    Except.ok (q.add t, ["taskAdded"])

/-- V1 `spawnAgent` run to completion (orchestrator.ts lines 170-232;
the loop awaits it): the agent record ends completed or failed per the
executor outcome `success`, and `task.status = agent.status` at the end.
Memory-manager writes are elided (they do not touch scheduling state). -/
def spawnAgentV1 (s : OrchState) (t : Task) (success : Bool) : OrchState :=
  let outcome := if success then AgentStatus.completed else AgentStatus.failed
  let agent : Agent :=
    { id := "agent-" ++ toString s.agentCounter, mode := t.mode,
      taskId := t.id, status := outcome }
  { s with agents := s.agents ++ [agent],
           queue := updateTaskStatus s.queue t.id outcome,
           agentCounter := s.agentCounter + 1 }

/-- One pass of orchestrator V1's `processTaskQueue` while-body
(orchestrator.ts lines 116-161), with the executor outcome supplied by
`success`: slot check, `getNext`, the dependency re-check with its
requeue / fail-after-50-retries branch (lines 136-152, translated in
full), else the awaited `spawnAgent`. -/
def loopIterV1 (success : Bool) (s : OrchState) : OrchState :=
  if s.maxConcurrentAgents ≤ activeAgents s then s
  else
    match s.queue.getNext with
    | (none, _) => s
    | (some t, q') =>
      if areDependenciesMet q'.tasks t then
        spawnAgentV1 { s with queue := q' } t success
      else
        let retryCount := t.retryCount + 1
        if 50 < retryCount then
          { s with queue := updateTaskStatus q' t.id AgentStatus.failed }
        else
          { s with queue := q'.add { t with retryCount := retryCount } }

/-- Orchestrator V1's scheduling loop as a transition system.
`dispatch` is the loop pass up to the suspension inside `spawnAgent`
(agent created running; the task was set running by `getNext`);
`finish` is the resumption after the execute call returns.  The
dependency re-check branch of lines 136-152 appears as `requeue` and
`failRetry` with exactly the guards the code tests.  `addTask` adds a
pending task with a fresh id (every caller constructs tasks that way);
`cleanupAgent` is the delayed removal of a terminal agent (lines
374-380). -/
def addResult (s : OrchState) (t : Task) : OrchState :=
  { s with queue := s.queue.add t }

/-- State after the dispatch half of a V1 loop pass: queue as `getNext`
left it, one fresh agent running for the selected task. -/
def dispatchResultV1 (s : OrchState) (t : Task) (q' : TaskQueue) : OrchState :=
  { s with
    queue := q',
    agents := s.agents ++
      [⟨"agent-" ++ toString s.agentCounter, t.mode, t.id,
        AgentStatus.running⟩],
    agentCounter := s.agentCounter + 1 }

/-- State after the requeue branch (orchestrator.ts lines 148-151). -/
def requeueResult (s : OrchState) (t : Task) (q' : TaskQueue) : OrchState :=
  { s with queue := q'.add { t with retryCount := t.retryCount + 1 } }

/-- State after the retries-exceeded branch (orchestrator.ts lines 141-146). -/
def failRetryResult (s : OrchState) (t : Task) (q' : TaskQueue) : OrchState :=
  { s with queue := updateTaskStatus q' t.id AgentStatus.failed }

/-- State after one running agent's execution returns: the agent and its
task both become completed or failed (`task.status = agent.status`). -/
def finishResult (s : OrchState) (i : Nat) (success : Bool) (a : Agent) :
    OrchState :=
  let outcome := if success then AgentStatus.completed else AgentStatus.failed
  { s with
    agents := s.agents.set i { a with status := outcome },
    queue := updateTaskStatus s.queue a.taskId outcome }

inductive StepV1 : OrchState → OrchState → Prop where
  | addTask (s : OrchState) (t : Task) :
      t.status = AgentStatus.pending →
      mapGet s.queue.tasks t.id = none →
      StepV1 s (addResult s t)
  | dispatch (s : OrchState) (t : Task) (q' : TaskQueue) :
      activeAgents s < s.maxConcurrentAgents →
      s.queue.getNext = (some t, q') →
      areDependenciesMet q'.tasks t = true →
      StepV1 s (dispatchResultV1 s t q')
  | requeue (s : OrchState) (t : Task) (q' : TaskQueue) :
      activeAgents s < s.maxConcurrentAgents →
      s.queue.getNext = (some t, q') →
      areDependenciesMet q'.tasks t = false →
      t.retryCount + 1 ≤ 50 →
      StepV1 s (requeueResult s t q')
  | failRetry (s : OrchState) (t : Task) (q' : TaskQueue) :
      activeAgents s < s.maxConcurrentAgents →
      s.queue.getNext = (some t, q') →
      areDependenciesMet q'.tasks t = false →
      50 < t.retryCount + 1 →
      StepV1 s (failRetryResult s t q')
  | finish (s : OrchState) (i : Nat) (success : Bool) (a : Agent) :
      s.agents.get? i = some a →
      a.status = AgentStatus.running →
      StepV1 s (finishResult s i success a)
  | cleanupAgent (s : OrchState) (i : Nat) (a : Agent) :
      s.agents.get? i = some a →
      (a.status = AgentStatus.completed ∨ a.status = AgentStatus.failed) →
      StepV1 s { s with agents := s.agents.eraseIdx i }

/-- The orchestrator's initial state: empty queue, no agents. -/
def initState (maxAgents : Nat) : OrchState :=
  ⟨TaskQueue.empty, [], maxAgents, 0⟩

/-- States the V1 scheduling loop can reach from startup. -/
inductive ReachableV1 (maxAgents : Nat) : OrchState → Prop where
  | init : ReachableV1 maxAgents (initState maxAgents)
  | step {s s' : OrchState} :
      ReachableV1 maxAgents s → StepV1 s s' → ReachableV1 maxAgents s'

/-- `isValidAgentMode`'s list (orchestrator.ts lines 1033-1066). -/
def validModes : List String :=
  ["architect", "coder", "tester", "debugger", "security", "documentation",
   "integrator", "monitor", "optimizer", "ask", "devops", "tutorial",
   "database", "specification", "mcp", "orchestrator", "designer",
   "product", "qa", "reviewer", "research", "cloud", "sre", "ai", "ux",
   "mobile", "api", "performance", "release"]

def isValidAgentMode (mode : String) : Bool :=
  validModes.contains mode

/-- `canRunInParallel` (orchestrator.ts lines 1197-1247): sequential
modes need an empty running set; a mode in a conflict group is blocked
while another member of its group runs; everything else (the
independent list and the default) is allowed. -/
def sequentialTasks : List String := ["orchestrator"]

def conflictGroups : List (List String) :=
  [["coder", "integrator"], ["architect", "designer"]]

def independentTasks : List String :=
  ["documentation", "tutorial", "specification", "ask", "security",
   "monitor", "optimizer", "devops", "qa", "reviewer", "research", "ux",
   "performance", "release"]

def canRunInParallel (taskMode : String) (running : List String) : Bool :=
  if sequentialTasks.contains taskMode then
    running.isEmpty
  else if conflictGroups.any fun g =>
      g.contains taskMode && running.any fun m => g.contains m && m != taskMode then
    false
  else if independentTasks.contains taskMode then
    true
  else
    true

/-- `isParallelizable`'s list (orchestrator.ts lines 1252-1274). -/
def parallelizableTypes : List String :=
  ["documentation", "tutorial", "specification", "ask", "security",
   "monitor", "optimizer", "devops", "tester", "qa", "reviewer",
   "research", "ux", "performance", "release", "api", "mobile"]

def isParallelizable (t : Task) : Bool :=
  parallelizableTypes.contains t.mode

/-- The sort of `getParallelizableTasks` (orchestrator.ts lines
1180-1191): priority descending, then parallelizable preferred, stable.
Equal to a stable descending sort by `2 * priorityOrder +
parallelizable-bit` (the bit sits below the priority spacing). -/
def dispatchKey (t : Task) : Nat :=
  2 * priorityOrder t.priority + (if isParallelizable t then 1 else 0)

/-- `getParallelizableTasks` (orchestrator.ts lines 1158-1192): pending
tasks with met dependencies whose mode may run beside the currently
running modes, sorted for dispatch. -/
def getParallelizableTasks (s : OrchState) : List Task :=
  let pending := s.queue.getAllTasks.filter fun t =>
    t.status == AgentStatus.pending
  let running := runningModes s
  let available := pending.filter fun t =>
    areDependenciesMet s.queue.tasks t && canRunInParallel t.mode running
  sortKeyDesc dispatchKey available

/-- `availableTasks.slice(0, this.maxConcurrentAgents - activeAgents)`
(orchestrator.ts lines 511-514; a negative slice count gives `[]`,
matching truncated subtraction). -/
def tasksToStart (s : OrchState) : List Task :=
  (getParallelizableTasks s).take (s.maxConcurrentAgents - activeAgents s)

/-- One pass of orchestrator V2's `processTaskQueue` while-body
(orchestrator.ts lines 483-547): spawn one running agent per selected
task.  V2's `spawnAgent` leaves the task's own status pending until the
execution finishes. -/
def dispatchStepV2 (s : OrchState) : OrchState :=
  let ts := tasksToStart s
  { s with
    agents := s.agents ++ ts.enum.map fun p =>
      ⟨"agent-" ++ toString (s.agentCounter + p.1), p.2.mode, p.2.id,
       AgentStatus.running⟩,
    agentCounter := s.agentCounter + ts.length }

/-- Orchestrator V2's scheduling loop as a transition system: task
addition (V2's `addTask` has no validation), a dispatch pass, and the
completion of one running agent (V2's `spawnAgent` tail sets
`task.status = agent.status`).  Tasks enqueued by the completion path
(delegations, follow-ups) are covered by subsequent `addTask` steps. -/
inductive StepV2 : OrchState → OrchState → Prop where
  | addTask (s : OrchState) (t : Task) :
      t.status = AgentStatus.pending →
      mapGet s.queue.tasks t.id = none →
      StepV2 s (addResult s t)
  | dispatch (s : OrchState) :
      StepV2 s (dispatchStepV2 s)
  | finish (s : OrchState) (i : Nat) (success : Bool) (a : Agent) :
      s.agents.get? i = some a →
      a.status = AgentStatus.running →
      StepV2 s (finishResult s i success a)

/-- States the V2 scheduling loop can reach from startup. -/
inductive ReachableV2 (maxAgents : Nat) : OrchState → Prop where
  | init : ReachableV2 maxAgents (initState maxAgents)
  | step {s s' : OrchState} :
      ReachableV2 maxAgents s → StepV2 s s' → ReachableV2 maxAgents s'

/-- A delegation request (orchestrator.ts lines 1702-1709, interface
`DelegationRequest`; `delegationType` kept as the string the code uses). -/
structure DelegationRequest where
  targetMode : String
  description : String
  priority : Priority
  delegationType : String
deriving DecidableEq, Repr

/-- Is `pat` a leading part of `cs`? -/
def startsWithL : List Char → List Char → Bool
  | _, [] => true
  | [], _ :: _ => false
  | c :: cs, p :: ps => c = p && startsWithL cs ps

/-- Index of the leftmost occurrence of `pat` in `cs`. -/
def findMarker (pat : List Char) : List Char → Option Nat
  | [] => if startsWithL [] pat then some 0 else none
  | c :: cs =>
    if startsWithL (c :: cs) pat then some 0
    else
      match findMarker pat cs with
      | some i => some (i + 1)
      | none => none

/-- `a.includes(b)` on strings. -/
def containsStr (s sub : String) : Bool :=
  (findMarker sub.data s.data).isSome

/-- The lazy dotall capture `(.+?)` ended by the lookahead
`(?=stop1|...|$)`: having consumed at least one character (in `acc`,
reversed), stop at the first position where a stop marker starts, or at
the end of the text; returns (capture, remainder). -/
def lazyCaptureAux (stops : List (List Char)) (acc : List Char) :
    List Char → List Char × List Char
  | [] => (acc.reverse, [])
  | c :: rest =>
    if stops.any fun p => startsWithL (c :: rest) p then
      (acc.reverse, c :: rest)
    else
      lazyCaptureAux stops (c :: acc) rest

/-- `(.+?)(?=stops|$)`: at least one character, then `lazyCaptureAux`. -/
def lazyCapture (stops : List (List Char)) :
    List Char → Option (List Char × List Char)
  | [] => none
  | c :: rest => some (lazyCaptureAux stops [c] rest)

/-- Match `\s*(\w+)\s*[-:]\s*(.+?)(?=stops|$)` directly after a marker
keyword.  `none` when the shape is absent; greedy `\w+` cannot
backtrack into a successful `[-:]` since `-` and `:` are neither word
nor space characters, so this deterministic reading equals the regex. -/
def matchAfterMarker (stops : List (List Char)) (after : List Char) :
    Option (String × String × List Char) :=
  let a1 := after.dropWhile isSpaceChar
  let word := a1.takeWhile isWordChar
  if word.isEmpty then none
  else
    match (a1.drop word.length).dropWhile isSpaceChar with
    | [] => none
    | c :: a3 =>
      if c = '-' || c = ':' then
        match lazyCapture stops (a3.dropWhile isSpaceChar) with
        | none => none
        | some (cap, rest) => some (String.mk word, String.mk cap, rest)
      else none

/-- The `while ((match = pattern.exec(result)) !== null)` loop of
`parseDelegationRequests`, with `lastIndex` advancing: at each marker
occurrence either a full match (the scan resumes at the lookahead
position) or, when the shape after the keyword fails, the engine
restarts one character past the occurrence.  Fuelled by the text
length. -/
def scanMatches (marker : List Char) (stops : List (List Char)) :
    Nat → List Char → List (String × String)
  | 0, _ => []
  | fuel + 1, cs =>
    match findMarker marker cs with
    | none => []
    | some i =>
      match matchAfterMarker stops (cs.drop (i + marker.length)) with
      | some (tgt, desc, rest) =>
        (tgt, desc) :: scanMatches marker stops fuel rest
      | none => scanMatches marker stops fuel (cs.drop (i + 1))

/-- One of the six delegation regexes (orchestrator.ts lines 709-716):
its source text (used by `getDelegationType`), the literal keyword every
match starts with, and the lookahead alternatives ending the capture. -/
structure DelegationRegex where
  source : String
  marker : String
  stops : List String
deriving DecidableEq, Repr

def delegationRegexes : List DelegationRegex :=
  [⟨"DELEGATE_TO:\\s*(\\w+)\\s*[-:]\\s*(.+?)(?=DELEGATE_TO:|REQUEST_|NEEDS_|$)",
    "DELEGATE_TO:", ["DELEGATE_TO:", "REQUEST_", "NEEDS_"]⟩,
   ⟨"REQUEST_AGENT:\\s*(\\w+)\\s*[-:]\\s*(.+?)(?=DELEGATE_TO:|REQUEST_|NEEDS_|$)",
    "REQUEST_AGENT:", ["DELEGATE_TO:", "REQUEST_", "NEEDS_"]⟩,
   ⟨"NEEDS_REVIEW:\\s*(\\w+)\\s*[-:]\\s*(.+?)(?=DELEGATE_TO:|REQUEST_|NEEDS_|$)",
    "NEEDS_REVIEW:", ["DELEGATE_TO:", "REQUEST_", "NEEDS_"]⟩,
   ⟨"ITERATE_WITH:\\s*(\\w+)\\s*[-:]\\s*(.+?)(?=DELEGATE_TO:|REQUEST_|NEEDS_|$)",
    "ITERATE_WITH:", ["DELEGATE_TO:", "REQUEST_", "NEEDS_"]⟩,
   ⟨"NEXT_STEP:\\s*(\\w+)\\s*[-:]\\s*(.+?)(?=NEXT_STEP:|DELEGATE_|REQUEST_|$)",
    "NEXT_STEP:", ["NEXT_STEP:", "DELEGATE_", "REQUEST_"]⟩,
   ⟨"TODO:\\s*(\\w+)\\s*[-:]\\s*(.+?)(?=TODO:|DELEGATE_|REQUEST_|$)",
    "TODO:", ["TODO:", "DELEGATE_", "REQUEST_"]⟩]

/-- `getDelegationType` (orchestrator.ts lines 1071-1077), applied as in
the code to a pattern's source text. -/
def getDelegationType (source : String) : String :=
  if containsStr source ("DELEGATE_TO") then "delegation"
  else if containsStr source ("REQUEST_AGENT") then "request"
  else if containsStr source ("NEEDS_REVIEW") then "review"
  else if containsStr source ("ITERATE_WITH") then "iteration"
  else "delegation"

/-- `parseDelegationRequests` (orchestrator.ts lines 705-737): run each
pattern over the output in order; lowercase the captured target, trim
the captured description, and keep the match only when
`isValidAgentMode` accepts the target; priority is always medium. -/
def parseDelegationRequests (result : String) : List DelegationRequest :=
  delegationRegexes.flatMap fun r =>
    (scanMatches r.marker.data (r.stops.map String.data)
        result.data.length result.data).filterMap fun m =>
      let targetAgent := toLowerStr m.1
      let taskDescription := trimStr m.2
      if isValidAgentMode targetAgent then
        some ⟨targetAgent, taskDescription, Priority.medium,
              getDelegationType r.source⟩
      else none

/-- `createDelegatedTask`'s task construction (orchestrator.ts lines
998-1008): fresh id (time plus randomness, passed in), description
suffixed with the delegating mode, dependencies exactly the parent
task's id, status pending. -/
def createDelegatedTask (request : DelegationRequest) (task : Task)
    (freshId : String) (now : Nat) : Task :=
  { id := freshId,
    description := request.description ++ " (Delegated by " ++ task.mode ++ ")",
    mode := request.targetMode,
    priority := request.priority,
    dependencies := [task.id],
    status := AgentStatus.pending,
    createdAt := now,
    retryCount := 0 }

/-- A context/memory entry (interface `MemoryEntry`,
src/src/types/index.ts); the content payload rendered as the string the
summarizer truncates, timestamps in epoch milliseconds. -/
structure MemoryEntry where
  id : String
  agentId : String
  timestamp : Nat
  type : String
  content : String
  tags : List String
deriving DecidableEq, Repr

/-- The memory manager's in-memory cache (src/src/core/memory-manager.ts
lines 10-15, the variant whose `store` runs `cleanup`): producer key to
entry list, insertion-ordered. -/
structure MemoryManager where
  cache : List (String × List MemoryEntry)
deriving DecidableEq, Repr

/-- `maxEntries = 1000` (memory-manager.ts line 14). -/
def maxEntriesCap : Nat := 1000

/-- `maxAge = 7 * 24 * 60 * 60 * 1000` (memory-manager.ts line 15). -/
def maxAgeMs : Nat := 7 * 24 * 60 * 60 * 1000

/-- Phase (a) of `MemoryManager.cleanup` (lines 137-151): keep entries
with `now - timestamp < maxAge`; a key left with no entries is
deleted. -/
def ageFilterCache (now : Nat) (cache : List (String × List MemoryEntry)) :
    List (String × List MemoryEntry) :=
  cache.filterMap fun p =>
    let valid := p.2.filter fun e => now - e.timestamp < maxAgeMs
    if valid.isEmpty then none else some (p.1, valid)

/-- The `allEntries` collection of the over-cap branch (lines 155-161):
every entry with its key and its index in that key's list. -/
def indexedEntries (cache : List (String × List MemoryEntry)) :
    List (String × MemoryEntry × Nat) :=
  cache.flatMap fun p => p.2.enum.map fun q => (p.1, q.2, q.1)

/-- Stable insertion for an ascending sort by a `Nat` key (JS stable
`sort` with comparator `key a - key b`). -/
def insKeyAsc {α : Type} (key : α → Nat) (x : α) : List α → List α
  | [] => [x]
  | y :: ys => if key y ≤ key x then y :: insKeyAsc key x ys else x :: y :: ys

def sortKeyAsc {α : Type} (key : α → Nat) (l : List α) : List α :=
  l.foldl (fun acc x => insKeyAsc key x acc) []

/-- One `splice(index, 1)` of the removal loop (lines 168-177): erase
the recorded index from the key's current list (an index at or past the
end removes nothing, as `splice` does), deleting the key if it ends
empty; a key already deleted is skipped. -/
def removeAtIndex (cache : List (String × List MemoryEntry))
    (key : String) (idx : Nat) : List (String × List MemoryEntry) :=
  match mapGet cache key with
  | none => cache
  | some entries =>
    let entries' := entries.eraseIdx idx
    if entries'.isEmpty then mapDelete cache key
    else mapSet cache key entries'

/-- `MemoryManager.cleanup` (lines 133-179): age filter; then, if the
total entry count still exceeds the cap, sort all (key, entry, index)
records by timestamp ascending (stable) and splice out the first
`total - cap` of them. -/
def MemoryManager.cleanup (m : MemoryManager) (now : Nat) : MemoryManager :=
  let aged := ageFilterCache now m.cache
  let total := (aged.map fun p => p.2.length).sum
  if maxEntriesCap < total then
    let sorted := sortKeyAsc (fun q => q.2.1.timestamp) (indexedEntries aged)
    ⟨(sorted.take (total - maxEntriesCap)).foldl
      (fun c q => removeAtIndex c q.1 q.2.2) aged⟩
  else ⟨aged⟩

/-- `MemoryManager.store` (lines 57-74): append the new entry under
`entry.agentId || 'global'`, then run `cleanup`; the debounced save does
not change the in-memory cache. -/
def MemoryManager.store (m : MemoryManager) (freshId : String) (now : Nat)
    (agentId : String) (type content : String) (tags : List String) :
    MemoryManager :=
  let entry : MemoryEntry := ⟨freshId, agentId, now, type, content, tags⟩
  let key := if agentId = "" then "global" else agentId
  let entries := (mapGet m.cache key).getD []
  MemoryManager.cleanup ⟨mapSet m.cache key (entries ++ [entry])⟩ now

/-- What `getContext` returns per entry (lines 86-92). -/
structure ContextItem where
  type : String
  summary : String
  timestamp : Nat
deriving DecidableEq, Repr

/-- `MemoryManager.getContext` (lines 79-93): flatten the cache in key
order, keep entries whose tags include the mode, sort newest first
(stable, JS comparator `b.timestamp - a.timestamp`), take the first 10,
and summarize each by truncating its content to 200 characters plus an
ellipsis.  The method only reads the cache. -/
def MemoryManager.getContext (m : MemoryManager) (mode : String) :
    List ContextItem :=
  let allEntries := m.cache.flatMap Prod.snd
  ((sortKeyDesc (fun e => e.timestamp)
      (allEntries.filter fun e => e.tags.contains mode)).take 10).map fun e =>
    ⟨e.type, takeStr e.content 200 ++ "...", e.timestamp⟩

/-! ## Shared lemmas about the map model -/

theorem mapGet_set_self {α : Type} (m : List (String × α)) (k : String) (v : α) :
    mapGet (mapSet m k v) k = some v := by
  induction m with
  | nil => simp [mapSet, mapGet]
  | cons p rest ih =>
    by_cases h : p.1 = k
    · simp [mapSet, h, mapGet]
    · simpa [mapSet, h, mapGet] using ih

theorem mapGet_set_ne {α : Type} (m : List (String × α)) (k k' : String) (v : α)
    (h : k' ≠ k) : mapGet (mapSet m k v) k' = mapGet m k' := by
  induction m with
  | nil => simp [mapSet, mapGet, Ne.symm h]
  | cons p rest ih =>
    by_cases hp : p.1 = k
    · subst hp
      simp [mapSet, mapGet, Ne.symm h]
    · by_cases hp' : p.1 = k'
      · simp [mapSet, hp, mapGet, hp', h]
      · simpa [mapSet, hp, mapGet, hp'] using ih

theorem mapGet_mem {α : Type} {m : List (String × α)} {k : String} {v : α}
    (h : mapGet m k = some v) : (k, v) ∈ m := by
  induction m with
  | nil => simp [mapGet] at h
  | cons p rest ih =>
    by_cases hp : p.1 = k
    · rw [show p = (p.1, p.2) from rfl] at h ⊢
      simp only [mapGet, if_pos hp] at h
      cases h
      simp [hp]
    · rw [show p = (p.1, p.2) from rfl] at h
      simp only [mapGet, if_neg hp] at h
      exact List.mem_cons_of_mem _ (ih h)

/-! ## C6: addTask validation -/

/-- A task with a non-empty description and a mode outside the known
enumeration: orchestrator V1's `addTask` accepts it. -/
def badModeTask : Task :=
  ⟨"task-1", "implement the feature", "bogus", Priority.medium, [],
   AgentStatus.pending, 0, 0⟩

/-- C6 counterexample: `addTask` does not validate the category against
the known enumeration.  A task whose description is non-blank and whose
mode is the unknown non-empty string "bogus" is inserted and `taskAdded`
is emitted, although the claim demands a validation error for a
category outside the enumeration. -/
theorem C6_counterexample :
    addTaskV1 TaskQueue.empty badModeTask =
      Except.ok (TaskQueue.empty.add badModeTask, ["taskAdded"]) ∧
    isValidAgentMode badModeTask.mode = false ∧
    trimStr badModeTask.description ≠ "" := by
  refine ⟨rfl, by decide, by decide⟩

/-- C6 (amended): orchestrator V1's `addTask` fails with a validation
error if and only if the description is empty or whitespace-only or the
mode is the empty string; on any other input (unknown non-empty
categories included) the task is inserted and `taskAdded` is emitted. -/
theorem C6_addTask_validation (q : TaskQueue) (t : Task) :
    ((∃ msg, addTaskV1 q t = Except.error msg) ↔
      (trimStr t.description = "" ∨ t.mode = "")) ∧
    (trimStr t.description ≠ "" → t.mode ≠ "" →
      addTaskV1 q t = Except.ok (q.add t, ["taskAdded"])) := by
  unfold addTaskV1
  by_cases h1 : trimStr t.description = "" <;>
    by_cases h2 : t.mode = "" <;> simp [h1, h2]

/-! ## C7: delegation marker extraction -/

theorem startsWithL_append (a b : List Char) : startsWithL (a ++ b) a = true := by
  induction a with
  | nil => cases b <;> simp [startsWithL]
  | cons c cs ih => simpa [startsWithL] using ih

theorem findMarker_of_startsWith (pat cs : List Char)
    (h : startsWithL cs pat = true) : findMarker pat cs = some 0 := by
  cases cs with
  | nil => simp [findMarker, h]
  | cons c rest => simp [findMarker, h]

/-- A string starting with `x` contains `x` (`String.includes`). -/
theorem containsStr_of_startsWith (s x : String)
    (h : startsWithL s.data x.data = true) : containsStr s x = true := by
  unfold containsStr
  rw [findMarker_of_startsWith _ _ h]
  rfl

/-- The output text of Scenario D. -/
def scenarioD : String := "DELEGATE_TO: tester - write unit tests for module X"

/-- C7: the Scenario D output yields exactly one delegation request, for
category tester with the requested description; every task built by
`createDelegatedTask` depends exactly on the parent task's id, keeps the
requested category, and its description contains the requested text;
every request the parser emits has a target inside the known category
enumeration (so a marker naming an unknown category, as in the last
conjunct, produces no task and no error). -/
theorem C7_delegation :
    parseDelegationRequests scenarioD =
      [⟨"tester", "write unit tests for module X", Priority.medium,
        "delegation"⟩] ∧
    (∀ (r : DelegationRequest) (t : Task) (freshId : String) (now : Nat),
      (createDelegatedTask r t freshId now).dependencies = [t.id] ∧
      (createDelegatedTask r t freshId now).mode = r.targetMode ∧
      (createDelegatedTask r t freshId now).status = AgentStatus.pending ∧
      containsStr (createDelegatedTask r t freshId now).description
        r.description = true) ∧
    (∀ (s : String) (r : DelegationRequest),
      r ∈ parseDelegationRequests s → isValidAgentMode r.targetMode = true) ∧
    parseDelegationRequests "DELEGATE_TO: frobnicator - do stuff" = [] := by
  refine ⟨by decide, ?_, ?_, by decide⟩
  · intro r t freshId now
    refine ⟨rfl, rfl, rfl, ?_⟩
    apply containsStr_of_startsWith
    simp only [createDelegatedTask, String.data_append, List.append_assoc]
    exact startsWithL_append _ _
  · intro s r hr
    simp only [parseDelegationRequests, List.mem_flatMap,
      List.mem_filterMap] at hr
    obtain ⟨reg, -, m, -, hm⟩ := hr
    by_cases hv : isValidAgentMode (toLowerStr m.1) = true
    · simp only [hv, if_pos] at hm
      cases hm
      exact hv
    · simp [hv] at hm

/-! ## C4: the dependency-deadlock retry bound -/

/-- Scenario C's task: its dependency id "ghost" never appears in the
queue. -/
def ghostTask : Task :=
  ⟨"t3", "task with an unsatisfiable dependency", "coder", Priority.medium,
   ["ghost"], AgentStatus.pending, 0, 0⟩

/-- The orchestrator V1 state holding only `ghostTask`. -/
def ghostState : OrchState :=
  ⟨TaskQueue.empty.add ghostTask, [], 10, 0⟩

/-- C4 (the code at the failing input): `getNext` never returns a task
with unmet dependencies, so the scheduling loop's requeue / retry /
force-failed branch never runs for a task whose dependency id is absent
from the queue.  Every loop pass, whatever the executor outcomes, leaves
the state unchanged: after any number of passes the task is still
pending with a retry count of 0, never `failed` — against the claimed
bound of exactly 50 requeues. -/
theorem C4_ghost_never_failed :
    (∀ success : Bool, loopIterV1 success ghostState = ghostState) ∧
    (∀ execs : List Bool,
      execs.foldl (fun s e => loopIterV1 e s) ghostState = ghostState) ∧
    ghostState.queue.getById "t3" = some ghostTask ∧
    ghostTask.status = AgentStatus.pending ∧
    ghostTask.retryCount = 0 := by
  have h1 : ∀ success : Bool, loopIterV1 success ghostState = ghostState :=
    fun _ => rfl
  refine ⟨h1, ?_, rfl, rfl, rfl⟩
  intro execs
  induction execs with
  | nil => rfl
  | cons e rest ih => simpa [h1 e] using ih

/-! ## C5: conflict and sequential exclusion -/

def coderTask : Task :=
  ⟨"tc", "implement the feature", "coder", Priority.medium, [],
   AgentStatus.pending, 0, 0⟩

def integratorTask : Task :=
  ⟨"ti", "integrate the components", "integrator", Priority.medium, [],
   AgentStatus.pending, 0, 0⟩

def orchestratorTask : Task :=
  ⟨"to", "orchestrate the workflow", "orchestrator", Priority.medium, [],
   AgentStatus.pending, 0, 0⟩

/-- A reachable V2 state with both conflict-group tasks queued. -/
def conflictState : OrchState :=
  addResult (addResult (initState 10) coderTask) integratorTask

/-- A reachable V2 state with an orchestrator task and a coder task
queued. -/
def seqState : OrchState :=
  addResult (addResult (initState 10) orchestratorTask) coderTask

/-- C5 (the code at the failing input): with no agent running and both a
coder and an integrator task ready, one dispatch pass of the CLI
orchestrator starts agents for BOTH members of the coder/integrator
conflict group — `canRunInParallel` checks each candidate only against
the agents already running, not against the rest of the batch — reaching
a reachable state where a coder agent and an integrator agent run at
the same time; likewise a sequential orchestrator task is started
together with a coder task.  `canRunInParallel` itself rejects either
conflicting mode while the other runs, confirming the pair is a
conflict group. -/
theorem C5_conflict_both_running :
    ReachableV2 10 (dispatchStepV2 conflictState) ∧
    runningModes (dispatchStepV2 conflictState) = ["coder", "integrator"] ∧
    canRunInParallel "coder" ["integrator"] = false ∧
    canRunInParallel "integrator" ["coder"] = false ∧
    runningModes (dispatchStepV2 seqState) = ["orchestrator", "coder"] ∧
    canRunInParallel "coder" ["orchestrator"] = true := by
  refine ⟨?_, by decide, by decide, by decide, by decide, by decide⟩
  exact ReachableV2.step
    (ReachableV2.step
      (ReachableV2.step ReachableV2.init (StepV2.addTask _ coderTask rfl rfl))
      (StepV2.addTask _ integratorTask rfl rfl))
    (StepV2.dispatch _)

/-! ## Shared lemmas: stable sorts, the `getNext` scan, key discipline -/

theorem insKeyDesc_perm {α : Type} (key : α → Nat) (x : α) (l : List α) :
    (insKeyDesc key x l).Perm (x :: l) := by
  induction l with
  | nil => simp [insKeyDesc]
  | cons y ys ih =>
    by_cases h : key x ≤ key y
    · simp only [insKeyDesc, if_pos h]
      exact (ih.cons y).trans (List.Perm.swap x y ys)
    · simp [insKeyDesc, if_neg h]

theorem foldl_insKeyDesc_perm {α : Type} (key : α → Nat) :
    ∀ (l acc : List α),
      (l.foldl (fun a y => insKeyDesc key y a) acc).Perm (acc ++ l) := by
  intro l
  induction l with
  | nil => intro acc; simp
  | cons x xs ih =>
    intro acc
    have h1 := ih (insKeyDesc key x acc)
    have h2 : (insKeyDesc key x acc ++ xs).Perm (acc ++ x :: xs) := by
      have := (insKeyDesc_perm key x acc).append_right xs
      exact this.trans (List.perm_middle.symm)
    exact h1.trans h2

theorem sortKeyDesc_perm {α : Type} (key : α → Nat) (l : List α) :
    (sortKeyDesc key l).Perm l := by
  simpa [sortKeyDesc] using foldl_insKeyDesc_perm key l []

theorem mem_sortKeyDesc {α : Type} (key : α → Nat) (l : List α) (x : α) :
    x ∈ sortKeyDesc key l ↔ x ∈ l :=
  (sortKeyDesc_perm key l).mem_iff

/-- Whatever the scan returns was in the queue: a pending task of the
map with all dependencies completed. -/
theorem getNextAux_found (tasks : List (String × Task)) :
    ∀ (pq : List String) (t : Task) (rest : List String),
      getNextAux tasks pq = some (t, rest) →
      ∃ id, id ∈ pq ∧ mapGet tasks id = some t ∧
        t.status = AgentStatus.pending ∧ areDependenciesMet tasks t = true := by
  intro pq
  induction pq with
  | nil => intro t rest h; simp [getNextAux] at h
  | cons id pq ih =>
    intro t rest h
    unfold getNextAux at h
    split at h
    · rename_i t₀ hm
      split at h
      · rename_i hc
        injection h with h'
        have ht : t₀ = t := congrArg Prod.fst h'
        subst ht
        obtain ⟨hs, hd⟩ := Bool.and_eq_true_iff.mp hc
        exact ⟨id, List.mem_cons_self .., hm, by simpa using hs, hd⟩
      · split at h
        · rename_i t' rest' haux
          injection h with h'
          have ht : t' = t := congrArg Prod.fst h'
          subst ht
          obtain ⟨id', hmem, hg, hs, hd⟩ := ih t' rest' haux
          exact ⟨id', List.mem_cons_of_mem _ hmem, hg, hs, hd⟩
        · cases h
    · rename_i hm
      split at h
      · rename_i t' rest' haux
        injection h with h'
        have ht : t' = t := congrArg Prod.fst h'
        subst ht
        obtain ⟨id', hmem, hg, hs, hd⟩ := ih t' rest' haux
        exact ⟨id', List.mem_cons_of_mem _ hmem, hg, hs, hd⟩
      · cases h

/-- Inversion of a successful `getNext`: the returned task is the found
pending task set running, and the new queue writes it back at its id
with the scan's remaining priority queue. -/
theorem getNext_some_inv (q : TaskQueue) (t : Task) (q' : TaskQueue)
    (h : q.getNext = (some t, q')) :
    ∃ t₀ rest, getNextAux q.tasks q.priorityQueue = some (t₀, rest) ∧
      t = { t₀ with status := AgentStatus.running } ∧
      q' = ⟨mapSet q.tasks t₀.id t, rest⟩ := by
  unfold TaskQueue.getNext at h
  cases haux : getNextAux q.tasks q.priorityQueue with
  | none => rw [haux] at h; cases h
  | some pr =>
    rw [haux] at h
    refine ⟨pr.1, pr.2, by simp, ?_, ?_⟩
    · have := congrArg Prod.fst h
      simp only at this
      cases this
      rfl
    · have h2 := congrArg Prod.snd h
      have h1 := congrArg Prod.fst h
      simp only at h1 h2
      cases h1
      exact h2.symm ▸ rfl

theorem getNext_some_inv_witness :
    (⟨[("a", ⟨"a", "d", "coder", Priority.low, [], AgentStatus.pending, 0, 0⟩)],
      ["a"]⟩ : TaskQueue).getNext =
      (some ⟨"a", "d", "coder", Priority.low, [], AgentStatus.running, 0, 0⟩,
       ⟨[("a", ⟨"a", "d", "coder", Priority.low, [], AgentStatus.running, 0, 0⟩)],
        []⟩) := by
  decide

/-- Keys of the association list are pairwise distinct (a JS `Map`
cannot repeat a key). -/
def NoDupKeys {α : Type} (m : List (String × α)) : Prop :=
  (m.map Prod.fst).Nodup

theorem mapGet_eq_none_of_not_mem_keys {α : Type} (m : List (String × α))
    (k : String) (h : k ∉ m.map Prod.fst) : mapGet m k = none := by
  induction m with
  | nil => rfl
  | cons p rest ih =>
    simp only [List.map_cons, List.mem_cons, not_or] at h
    have hne : ¬ p.1 = k := fun e => h.1 e.symm
    simpa [mapGet, hne] using ih h.2

theorem mapGet_filter_of_nodup {α : Type} (m : List (String × α))
    (f : String × α → Bool) (k : String) (h : NoDupKeys m) :
    mapGet (m.filter f) k =
      match mapGet m k with
      | some v => if f (k, v) then some v else none
      | none => none := by
  induction m with
  | nil => rfl
  | cons p rest ih =>
    obtain ⟨hk, hnd⟩ := List.nodup_cons.mp h
    by_cases hp : p.1 = k
    · subst hp
      cases hf : f p
      · have : mapGet (rest.filter f) p.1 = none := by
          apply mapGet_eq_none_of_not_mem_keys
          intro hin
          refine hk (List.map_subset Prod.fst ?_ hin)
          exact fun x hx => List.mem_of_mem_filter hx
        rw [show p = (p.1, p.2) from rfl] at hf
        simp [List.filter_cons, hf, mapGet, this]
      · rw [show p = (p.1, p.2) from rfl] at hf
        simp [List.filter_cons, hf, mapGet]
    · rw [show p = (p.1, p.2) from rfl]
      by_cases hf : f (p.1, p.2)
      · simp only [List.filter_cons, hf, if_pos, mapGet, if_neg hp]
        exact ih hnd
      · simp only [List.filter_cons, hf, Bool.false_eq_true, if_false,
          mapGet, if_neg hp]
        exact ih hnd

/-! ## C10: the queue's frame properties -/

/-- C10: `getNext` removes the selected task only from the priority
order, never from the id-indexed map: after selection `getById` returns
the task (now running) and every other id is untouched; `add` inserts
at the task's id touching no other; a status write-back touches only
its own id; and `cleanup` makes `getById` return `none` exactly for
tasks that were completed and created before the cutoff. -/
theorem C10_queue_frame :
    (∀ (q : TaskQueue) (t : Task) (q' : TaskQueue),
      q.getNext = (some t, q') →
      q'.getById t.id = some t ∧
      ∀ id, id ≠ t.id → q'.getById id = q.getById id) ∧
    (∀ (q : TaskQueue) (t : Task),
      (q.add t).getById t.id = some t ∧
      ∀ id, id ≠ t.id → (q.add t).getById id = q.getById id) ∧
    (∀ (q : TaskQueue) (id : String) (st : AgentStatus) (t : Task),
      q.getById id = some t →
      (updateTaskStatus q id st).getById id = some { t with status := st } ∧
      ∀ id', id' ≠ id →
        (updateTaskStatus q id st).getById id' = q.getById id') ∧
    (∀ (q : TaskQueue) (now maxAge : Nat) (id : String),
      NoDupKeys q.tasks →
      ((q.cleanup now maxAge).getById id =
        match q.getById id with
        | some t => if shouldCleanup (now - maxAge) t then none else some t
        | none => none)) := by
  refine ⟨?_, ?_, ?_, ?_⟩
  · intro q t q' h
    obtain ⟨t₀, rest, -, rfl, rfl⟩ := getNext_some_inv q t q' h
    constructor
    · exact mapGet_set_self ..
    · intro id hid
      exact mapGet_set_ne _ _ _ _ hid
  · intro q t
    constructor
    · exact mapGet_set_self ..
    · intro id hid
      exact mapGet_set_ne _ _ _ _ hid
  · intro q id st t h
    unfold updateTaskStatus
    rw [show TaskQueue.getById q id = mapGet q.tasks id from rfl] at h
    rw [h]
    exact ⟨mapGet_set_self .., fun id' hid' => mapGet_set_ne _ _ _ _ hid'⟩
  · intro q now maxAge id hnd
    show mapGet (q.tasks.filter _) id = _
    rw [mapGet_filter_of_nodup _ _ _ hnd]
    show _ = (match mapGet q.tasks id with
      | some t => if shouldCleanup (now - maxAge) t = true then none else some t
      | none => none)
    cases hq : mapGet q.tasks id with
    | some v => cases hs : shouldCleanup (now - maxAge) v <;> simp [hs]
    | none => rfl

/-! ## Shared lemmas: counting running agents, key discipline -/

theorem length_filter_set_le {α : Type} (p : α → Bool) (l : List α) :
    ∀ (i : Nat) (a : α), p a = false →
      ((l.set i a).filter p).length ≤ (l.filter p).length := by
  induction l with
  | nil => intro i a _; simp
  | cons x xs ih =>
    intro i a ha
    cases i with
    | zero =>
      simp only [List.set]
      cases hx : p x <;> simp [List.filter_cons, hx, ha, Nat.le_succ_of_le]
    | succ i =>
      simp only [List.set]
      cases hx : p x <;> simp [List.filter_cons, hx, ih i a ha]

theorem length_filter_eraseIdx_le {α : Type} (p : α → Bool) (l : List α) :
    ∀ i : Nat, ((l.eraseIdx i).filter p).length ≤ (l.filter p).length := by
  induction l with
  | nil => intro i; simp
  | cons x xs ih =>
    intro i
    cases i with
    | zero =>
      simp only [List.eraseIdx]
      cases hx : p x <;> simp [List.filter_cons, hx, Nat.le_succ_of_le]
    | succ i =>
      simp only [List.eraseIdx]
      cases hx : p x <;> simp [List.filter_cons, hx, ih i]

/-- Every map entry is stored under its own task's id (the queue only
ever calls `tasks.set(task.id, task)`). -/
def KeyedTasks (m : List (String × Task)) : Prop :=
  ∀ p ∈ m, (p.2 : Task).id = p.1

theorem keyed_mapSet {m : List (String × Task)} {k : String} {v : Task}
    (h : KeyedTasks m) (hv : v.id = k) : KeyedTasks (mapSet m k v) := by
  induction m with
  | nil => intro p hp; simp [mapSet] at hp; simp [hp, hv]
  | cons q rest ih =>
    intro p hp
    by_cases hq : q.1 = k
    · rw [show q = (q.1, q.2) from rfl] at hp
      simp only [mapSet, if_pos hq] at hp
      rcases List.mem_cons.mp hp with h1 | h2
      · simp [h1, hv]
      · exact h p (List.mem_cons_of_mem _ h2)
    · rw [show q = (q.1, q.2) from rfl] at hp
      simp only [mapSet, if_neg hq] at hp
      rcases List.mem_cons.mp hp with h1 | h2
      · exact h p (h1 ▸ List.mem_cons_self ..)
      · exact ih (fun r hr => h r (List.mem_cons_of_mem _ hr)) p h2

theorem keyed_add {q : TaskQueue} {t : Task} (h : KeyedTasks q.tasks) :
    KeyedTasks (q.add t).tasks :=
  keyed_mapSet h rfl

theorem keyed_getNext {q : TaskQueue} {t : Task} {q' : TaskQueue}
    (hn : q.getNext = (some t, q')) (h : KeyedTasks q.tasks) :
    KeyedTasks q'.tasks := by
  obtain ⟨t₀, rest, -, rfl, rfl⟩ := getNext_some_inv q t q' hn
  exact keyed_mapSet h rfl

theorem keyed_updateStatus {q : TaskQueue} {id : String} {st : AgentStatus}
    (h : KeyedTasks q.tasks) : KeyedTasks (updateTaskStatus q id st).tasks := by
  unfold updateTaskStatus
  cases hm : mapGet q.tasks id with
  | none => exact h
  | some t =>
    have ht : t.id = id := h _ (mapGet_mem hm)
    exact keyed_mapSet h ht

theorem keyedV1 (maxAgents : Nat) (s : OrchState)
    (h : ReachableV1 maxAgents s) : KeyedTasks s.queue.tasks := by
  induction h with
  | init => intro p hp; cases hp
  | step _ hs ih =>
    cases hs with
    | addTask t h1 h2 => exact keyed_add ih
    | dispatch t q' h1 h2 h3 => exact keyed_getNext h2 ih
    | requeue t q' h1 h2 h3 h4 => exact keyed_add (keyed_getNext h2 ih)
    | failRetry t q' h1 h2 h3 h4 =>
      exact keyed_updateStatus (keyed_getNext h2 ih)
    | finish i success a h1 h2 => exact keyed_updateStatus ih
    | cleanupAgent i a h1 h2 => exact ih

theorem keyedV2 (maxAgents : Nat) (s : OrchState)
    (h : ReachableV2 maxAgents s) : KeyedTasks s.queue.tasks := by
  induction h with
  | init => intro p hp; cases hp
  | step _ hs ih =>
    cases hs with
    | addTask t h1 h2 => exact keyed_add ih
    | dispatch => exact ih
    | finish i success a h1 h2 => exact keyed_updateStatus ih

/-- Reading a task back through a status write: either nothing changed
at that id, or it is the written id carrying the written status. -/
theorem updateTaskStatus_eq_none {q : TaskQueue} {id : String}
    {st : AgentStatus} (hm : mapGet q.tasks id = none) :
    updateTaskStatus q id st = q := by
  unfold updateTaskStatus
  rw [hm]

theorem updateTaskStatus_eq_some {q : TaskQueue} {id : String}
    {st : AgentStatus} {t : Task} (hm : mapGet q.tasks id = some t) :
    updateTaskStatus q id st =
      { q with tasks := mapSet q.tasks id { t with status := st } } := by
  unfold updateTaskStatus
  rw [hm]

theorem updateStatus_read {q : TaskQueue} {id id' : String}
    {st : AgentStatus} {tpre tpost : Task}
    (hpre : mapGet q.tasks id' = some tpre)
    (hpost : mapGet (updateTaskStatus q id st).tasks id' = some tpost) :
    tpost = tpre ∨ (id' = id ∧ tpost = { tpre with status := st }) := by
  cases hm : mapGet q.tasks id with
  | none =>
    rw [updateTaskStatus_eq_none hm] at hpost
    exact Or.inl (Option.some.inj (hpre.symm.trans hpost)).symm
  | some t =>
    rw [updateTaskStatus_eq_some hm] at hpost
    by_cases hid : id' = id
    · subst hid
      rw [mapGet_set_self] at hpost
      have ht : t = tpre := Option.some.inj (hm.symm.trans hpre)
      refine Or.inr ⟨rfl, ?_⟩
      rw [← Option.some.inj hpost, ht]
    · rw [mapGet_set_ne _ _ _ _ hid] at hpost
      exact Or.inl (Option.some.inj (hpre.symm.trans hpost)).symm

/-! ## C2: the concurrency bound -/

theorem activeAgents_finishResult_le (s : OrchState) (i : Nat)
    (success : Bool) (a : Agent) :
    activeAgents (finishResult s i success a) ≤ activeAgents s := by
  unfold finishResult activeAgents
  apply length_filter_set_le
  cases success <;> rfl

theorem activeAgents_dispatchStepV2 (s : OrchState) :
    activeAgents (dispatchStepV2 s) =
      activeAgents s + (tasksToStart s).length := by
  simp only [dispatchStepV2, activeAgents, List.filter_append,
    List.length_append]
  congr 1
  rw [List.filter_eq_self.mpr, List.length_map, List.enum_length]
  intro a ha
  obtain ⟨p, -, rfl⟩ := List.mem_map.mp ha
  rfl

theorem tasksToStart_length_le (s : OrchState) :
    (tasksToStart s).length ≤ s.maxConcurrentAgents - activeAgents s := by
  simp only [tasksToStart]
  exact List.length_take_le (s.maxConcurrentAgents - activeAgents s)
      (getParallelizableTasks s)

theorem reachableV1_inv (maxAgents : Nat) (s : OrchState)
    (h : ReachableV1 maxAgents s) :
    s.maxConcurrentAgents = maxAgents ∧ activeAgents s ≤ maxAgents := by
  induction h with
  | init => exact ⟨rfl, Nat.zero_le _⟩
  | @step s₀ s₁ _ hs ih =>
    obtain ⟨hmax, hact⟩ := ih
    cases hs with
    | addTask t h1 h2 => exact ⟨hmax, hact⟩
    | dispatch t q' h1 h2 h3 =>
      refine ⟨hmax, ?_⟩
      have he : activeAgents (dispatchResultV1 s₀ t q') =
          activeAgents s₀ + 1 := by
        simp [dispatchResultV1, activeAgents, List.filter_append]
      rw [he]
      omega
    | requeue t q' h1 h2 h3 h4 => exact ⟨hmax, hact⟩
    | failRetry t q' h1 h2 h3 h4 => exact ⟨hmax, hact⟩
    | finish i success a h1 h2 =>
      have hle := activeAgents_finishResult_le s₀ i success a
      exact ⟨hmax, le_trans hle hact⟩
    | cleanupAgent i a h1 h2 =>
      have hle : activeAgents { s₀ with agents := s₀.agents.eraseIdx i } ≤
          activeAgents s₀ := length_filter_eraseIdx_le _ _ i
      exact ⟨hmax, le_trans hle hact⟩

theorem reachableV2_inv (maxAgents : Nat) (s : OrchState)
    (h : ReachableV2 maxAgents s) :
    s.maxConcurrentAgents = maxAgents ∧ activeAgents s ≤ maxAgents := by
  induction h with
  | init => exact ⟨rfl, Nat.zero_le _⟩
  | @step s₀ s₁ _ hs ih =>
    obtain ⟨hmax, hact⟩ := ih
    cases hs with
    | addTask t h1 h2 => exact ⟨hmax, hact⟩
    | dispatch =>
      refine ⟨hmax, ?_⟩
      have he := activeAgents_dispatchStepV2 s₀
      have hsl := tasksToStart_length_le s₀
      rw [he]
      omega
    | finish i success a h1 h2 =>
      have hle := activeAgents_finishResult_le s₀ i success a
      exact ⟨hmax, le_trans hle hact⟩


/-- C2: in every state either scheduling loop can reach with configured
limit `maxAgents`, the number of agents with status running never
exceeds `maxAgents`; and one V2 dispatch pass never starts more tasks
than `maxAgents` minus the number of currently running agents. -/
theorem C2_concurrency_bound :
    (∀ (maxAgents : Nat) (s : OrchState), ReachableV1 maxAgents s →
      activeAgents s ≤ maxAgents) ∧
    (∀ (maxAgents : Nat) (s : OrchState), ReachableV2 maxAgents s →
      activeAgents s ≤ maxAgents) ∧
    (∀ s : OrchState, (tasksToStart s).length ≤
      s.maxConcurrentAgents - activeAgents s) := by
  refine ⟨?_, ?_, ?_⟩
  · exact fun maxAgents s h => (reachableV1_inv maxAgents s h).2
  · exact fun maxAgents s h => (reachableV2_inv maxAgents s h).2
  · exact tasksToStart_length_le

/-! ## C1: dependency safety -/

/-- A successful `getNext` on a key-disciplined queue selected a task of
the map that was pending with all dependencies completed, and wrote it
back (as running) at its own id. -/
theorem getNext_found_keyed {q : TaskQueue} {t : Task} {q' : TaskQueue}
    (hk : KeyedTasks q.tasks) (hn : q.getNext = (some t, q')) :
    ∃ t₀, t = { t₀ with status := AgentStatus.running } ∧
      mapGet q.tasks t₀.id = some t₀ ∧
      t₀.status = AgentStatus.pending ∧
      areDependenciesMet q.tasks t₀ = true ∧
      q'.tasks = mapSet q.tasks t₀.id t := by
  obtain ⟨t₀, rest, haux, rfl, rfl⟩ := getNext_some_inv q t q' hn
  obtain ⟨id₁, hmem, hg, hs, hd⟩ := getNextAux_found q.tasks _ t₀ rest haux
  have hid : t₀.id = id₁ := hk _ (mapGet_mem hg)
  exact ⟨t₀, rfl, hid ▸ hg, hs, hd, rfl⟩

/-- C1: in either scheduling loop, a step starting from a reachable
state gives a task status running only when every id in its dependency
list resolved, in the pre-state, to a task with status completed (an id
resolving to no task fails that test); and every task a V2 dispatch
pass hands to an agent passes the same test in the dispatching state. -/
theorem C1_dependency_safety :
    (∀ (maxAgents : Nat) (s s' : OrchState), ReachableV1 maxAgents s →
      StepV1 s s' →
      ∀ (id : String) (tpre tpost : Task),
        mapGet s.queue.tasks id = some tpre →
        mapGet s'.queue.tasks id = some tpost →
        tpre.status ≠ AgentStatus.running →
        tpost.status = AgentStatus.running →
        areDependenciesMet s.queue.tasks tpre = true) ∧
    (∀ (maxAgents : Nat) (s s' : OrchState), ReachableV2 maxAgents s →
      StepV2 s s' →
      ∀ (id : String) (tpre tpost : Task),
        mapGet s.queue.tasks id = some tpre →
        mapGet s'.queue.tasks id = some tpost →
        tpre.status ≠ AgentStatus.running →
        tpost.status = AgentStatus.running →
        areDependenciesMet s.queue.tasks tpre = true) ∧
    (∀ (s : OrchState) (t : Task), t ∈ tasksToStart s →
      areDependenciesMet s.queue.tasks t = true) := by
  refine ⟨?_, ?_, ?_⟩
  · intro maxAgents s s' hreach hstep id tpre tpost hpre hpost hne hrun
    have hk : KeyedTasks s.queue.tasks := keyedV1 maxAgents s hreach
    cases hstep with
    | addTask t0 hp hfresh =>
      by_cases hid : id = t0.id
      · subst hid
        rw [show (addResult s t0).queue.tasks = mapSet s.queue.tasks t0.id t0
            from rfl, mapGet_set_self] at hpost
        cases hpost
        rw [hp] at hrun
        cases hrun
      · rw [show (addResult s t0).queue.tasks = mapSet s.queue.tasks t0.id t0
            from rfl, mapGet_set_ne _ _ _ _ hid] at hpost
        cases Option.some.inj (hpre.symm.trans hpost)
        exact absurd hrun hne
    | dispatch t q' h1 h2 h3 =>
      obtain ⟨t₀, rfl, hg, hst, hd, hq'⟩ := getNext_found_keyed hk h2
      by_cases hid : id = t₀.id
      · subst hid
        cases Option.some.inj (hg.symm.trans hpre)
        exact hd
      · rw [show (dispatchResultV1 s _ q').queue = q' from rfl, hq',
          mapGet_set_ne _ _ _ _ hid] at hpost
        cases Option.some.inj (hpre.symm.trans hpost)
        exact absurd hrun hne
    | requeue t q' h1 h2 h3 h4 =>
      obtain ⟨t₀, rfl, hg, hst, hd, hq'⟩ := getNext_found_keyed hk h2
      by_cases hid : id = t₀.id
      · subst hid
        cases Option.some.inj (hg.symm.trans hpre)
        exact hd
      · have hrw : (requeueResult s
            { t₀ with status := AgentStatus.running } q').queue.tasks =
            mapSet q'.tasks t₀.id
              { t₀ with
                status := AgentStatus.running,
                retryCount := t₀.retryCount + 1 } := rfl
        rw [hrw, mapGet_set_ne _ _ _ _ hid, hq',
          mapGet_set_ne _ _ _ _ hid] at hpost
        cases Option.some.inj (hpre.symm.trans hpost)
        exact absurd hrun hne
    | failRetry t q' h1 h2 h3 h4 =>
      obtain ⟨t₀, rfl, hg, hst, hd, hq'⟩ := getNext_found_keyed hk h2
      have hmid : mapGet q'.tasks t₀.id =
          some { t₀ with status := AgentStatus.running } := by
        rw [hq']
        exact mapGet_set_self ..
      have hupd : (failRetryResult s
          { t₀ with status := AgentStatus.running } q').queue =
          updateTaskStatus q' t₀.id AgentStatus.failed := rfl
      rw [hupd, updateTaskStatus_eq_some hmid] at hpost
      by_cases hid : id = t₀.id
      · subst hid
        rw [mapGet_set_self] at hpost
        cases hpost
        cases hrun
      · rw [mapGet_set_ne _ _ _ _ hid, hq',
          mapGet_set_ne _ _ _ _ hid] at hpost
        cases Option.some.inj (hpre.symm.trans hpost)
        exact absurd hrun hne
    | finish i success a hi ha =>
      rcases updateStatus_read hpre hpost with heq | ⟨-, heq⟩
      · subst heq
        exact absurd hrun hne
      · rw [heq] at hrun
        cases success <;> cases hrun
    | cleanupAgent i a hi ha =>
      cases Option.some.inj (hpre.symm.trans hpost)
      exact absurd hrun hne
  · intro maxAgents s s' hreach hstep id tpre tpost hpre hpost hne hrun
    cases hstep with
    | addTask t0 hp hfresh =>
      by_cases hid : id = t0.id
      · subst hid
        rw [show (addResult s t0).queue.tasks = mapSet s.queue.tasks t0.id t0
            from rfl, mapGet_set_self] at hpost
        cases hpost
        rw [hp] at hrun
        cases hrun
      · rw [show (addResult s t0).queue.tasks = mapSet s.queue.tasks t0.id t0
            from rfl, mapGet_set_ne _ _ _ _ hid] at hpost
        cases Option.some.inj (hpre.symm.trans hpost)
        exact absurd hrun hne
    | dispatch =>
      cases Option.some.inj (hpre.symm.trans hpost)
      exact absurd hrun hne
    | finish i success a hi ha =>
      rcases updateStatus_read hpre hpost with heq | ⟨-, heq⟩
      · subst heq
        exact absurd hrun hne
      · rw [heq] at hrun
        cases success <;> cases hrun
  · intro s t ht
    have h1 : t ∈ getParallelizableTasks s := List.take_subset _ _ ht
    simp only [getParallelizableTasks] at h1
    rw [mem_sortKeyDesc] at h1
    have h2 := (List.mem_filter.mp h1).2
    exact (Bool.and_eq_true_iff.mp h2).1

/-! ## C3: next-ready selection.

The queue built by a sequence of `add` calls is characterised first:
its map is the insertion-ordered association list, and its priority
queue is — because JS `sort` is stable — the concatenation of the
high-, medium- and low-priority tasks, each in insertion order. -/

/-- The numeric sort key of a task (`priorityOrder[t.priority]`). -/
def taskKey (t : Task) : Nat := priorityOrder t.priority

/-- The association list a sequence of fresh-id `add` calls builds. -/
def toMap (ts : List Task) : List (String × Task) :=
  ts.map fun t => (t.id, t)

/-- The queue after adding `ts` in order to the empty queue. -/
def buildQueue (ts : List Task) : TaskQueue :=
  ts.foldl TaskQueue.add TaskQueue.empty

/-- Tasks of one priority class, in insertion order. -/
def prioClass (n : Nat) (ts : List Task) : List Task :=
  ts.filter fun t => taskKey t == n

/-- The stable priority order: high first, then medium, then low, ties
in insertion order. -/
def sorted3 (ts : List Task) : List Task :=
  prioClass 3 ts ++ prioClass 2 ts ++ prioClass 1 ts

/-- Eligibility in the claim's sense: pending with every dependency id
mapping to a completed task. -/
def eligB (ts : List Task) (t : Task) : Bool :=
  t.status == AgentStatus.pending && areDependenciesMet (toMap ts) t

/-- The largest priority key among a list of tasks. -/
def specMaxPrio (l : List Task) : Nat :=
  l.foldl (fun m t => max m (taskKey t)) 0

/-- The claim's specification of `getNext`, written from its words:
among the pending tasks whose dependencies are all completed, the first
task in insertion order carrying the maximal priority. -/
def specNext (ts : List Task) : Option Task :=
  if (ts.filter (eligB ts)).isEmpty then none
  else (ts.filter (eligB ts)).find? fun t =>
    taskKey t == specMaxPrio (ts.filter (eligB ts))

theorem taskKey_cases (t : Task) :
    taskKey t = 1 ∨ taskKey t = 2 ∨ taskKey t = 3 := by
  cases h : t.priority <;> simp [taskKey, priorityOrder, h]

theorem mapSet_append_of_not_mem {α : Type} (m : List (String × α))
    (k : String) (v : α) (h : k ∉ m.map Prod.fst) :
    mapSet m k v = m ++ [(k, v)] := by
  induction m with
  | nil => rfl
  | cons p rest ih =>
    simp only [List.map_cons, List.mem_cons, not_or] at h
    have hne : ¬ p.1 = k := fun e => h.1 e.symm
    rw [show p = (p.1, p.2) from rfl]
    simp only [mapSet, if_neg hne, List.cons_append]
    rw [ih h.2]

theorem toMap_keys (ts : List Task) :
    (toMap ts).map Prod.fst = ts.map Task.id := by
  simp [toMap]

theorem mapGet_toMap {ts : List Task} (hnd : (ts.map Task.id).Nodup)
    {t : Task} (ht : t ∈ ts) : mapGet (toMap ts) t.id = some t := by
  induction ts with
  | nil => cases ht
  | cons u us ih =>
    simp only [List.map_cons, List.nodup_cons] at hnd
    rcases List.mem_cons.mp ht with rfl | hmem
    · simp [toMap, mapGet]
    · have hne : ¬ u.id = t.id := by
        intro e
        exact hnd.1 (e ▸ List.mem_map_of_mem Task.id hmem)
      simpa [toMap, mapGet, hne] using ih hnd.2 hmem

theorem find?_append' {α : Type} (l₁ l₂ : List α) (p : α → Bool) :
    (l₁ ++ l₂).find? p =
      match l₁.find? p with
      | some a => some a
      | none => l₂.find? p := by
  induction l₁ with
  | nil => simp
  | cons x xs ih =>
    by_cases hx : p x = true
    · simp [List.find?_cons, hx]
    · simp only [List.cons_append, List.find?_cons, hx]
      simpa [hx] using ih

theorem find?_filter {α : Type} (l : List α) (q p : α → Bool) :
    (l.filter q).find? p = l.find? fun a => q a && p a := by
  induction l with
  | nil => rfl
  | cons x xs ih =>
    by_cases hq : q x = true
    · by_cases hp : p x = true
      · simp [List.filter_cons, hq, List.find?_cons, hp]
      · simp [List.filter_cons, hq, List.find?_cons, hp, ih]
    · simp [List.filter_cons, hq, List.find?_cons, ih]

theorem find?_congr' {α : Type} (l : List α) (p q : α → Bool)
    (h : ∀ a, p a = q a) : l.find? p = l.find? q := by
  induction l with
  | nil => rfl
  | cons x xs ih =>
    by_cases hx : p x = true
    · simp [List.find?_cons, hx, (h x) ▸ hx]
    · have hx' : ¬ q x = true := fun e => hx ((h x).symm ▸ e)
      simp [List.find?_cons, hx, hx', ih]

theorem foldl_max_init_le (key : Task → Nat) (l : List Task) :
    ∀ init : Nat, init ≤ l.foldl (fun m t => max m (key t)) init := by
  induction l with
  | nil => intro init; exact le_refl _
  | cons x xs ih =>
    intro init
    exact le_trans (Nat.le_max_left init (key x)) (ih _)

theorem le_foldl_max (key : Task → Nat) (l : List Task) :
    ∀ (init : Nat) (t : Task), t ∈ l →
      key t ≤ l.foldl (fun m t => max m (key t)) init := by
  induction l with
  | nil => intro _ t ht; cases ht
  | cons x xs ih =>
    intro init t ht
    rcases List.mem_cons.mp ht with rfl | hmem
    · exact le_trans (Nat.le_max_right init (key t)) (foldl_max_init_le ..)
    · exact ih _ t hmem

theorem foldl_max_le (key : Task → Nat) (l : List Task) :
    ∀ (init n : Nat), init ≤ n → (∀ t ∈ l, key t ≤ n) →
      l.foldl (fun m t => max m (key t)) init ≤ n := by
  induction l with
  | nil => intro _ _ h _; exact h
  | cons x xs ih =>
    intro init n hinit hall
    refine ih _ n (Nat.max_le.mpr ⟨hinit, hall x (List.mem_cons_self ..)⟩) ?_
    exact fun t ht => hall t (List.mem_cons_of_mem _ ht)

/-- Descending sortedness by a key. -/
def SortedDesc {α : Type} (key : α → Nat) (l : List α) : Prop :=
  l.Pairwise fun a b => key b ≤ key a

theorem insKeyDesc_eq_append {α : Type} (key : α → Nat) (x : α)
    (A B : List α) (hA : ∀ a ∈ A, key x ≤ key a)
    (hB : ∀ b ∈ B, key b < key x) :
    insKeyDesc key x (A ++ B) = A ++ x :: B := by
  induction A with
  | nil =>
    cases B with
    | nil => rfl
    | cons b B' =>
      have := hB b (List.mem_cons_self ..)
      simp [insKeyDesc, Nat.not_le_of_lt this, Nat.not_le.mpr this]
  | cons a A' ih =>
    have ha := hA a (List.mem_cons_self ..)
    simp only [List.cons_append, insKeyDesc, if_pos ha]
    exact congrArg (a :: ·) (ih fun a' ha' => hA a' (List.mem_cons_of_mem _ ha'))

theorem foldl_ins_of_sorted {α : Type} (key : α → Nat) :
    ∀ (l acc : List α), SortedDesc key acc → SortedDesc key l →
      (∀ a ∈ acc, ∀ b ∈ l, key b ≤ key a) →
      l.foldl (fun a y => insKeyDesc key y a) acc = acc ++ l := by
  intro l
  induction l with
  | nil => intro acc _ _ _; simp
  | cons x xs ih =>
    intro acc hacc hl hcross
    have hxacc : ∀ a ∈ acc, key x ≤ key a :=
      fun a ha => hcross a ha x (List.mem_cons_self ..)
    have hins : insKeyDesc key x acc = acc ++ [x] := by
      have := insKeyDesc_eq_append key x acc [] hxacc (by intro b hb; cases hb)
      simpa using this
    have hl' := List.pairwise_cons.mp hl
    have hacc' : SortedDesc key (acc ++ [x]) := by
      rw [SortedDesc, List.pairwise_append]
      exact ⟨hacc, List.pairwise_singleton .., by
        intro a ha b hb
        rw [List.mem_singleton.mp hb]
        exact hxacc a ha⟩
    have hcross' : ∀ a ∈ acc ++ [x], ∀ b ∈ xs, key b ≤ key a := by
      intro a ha b hb
      rcases List.mem_append.mp ha with h1 | h2
      · exact hcross a h1 b (List.mem_cons_of_mem _ hb)
      · rw [List.mem_singleton.mp h2]
        exact hl'.1 b hb
    simp only [List.foldl_cons, hins]
    rw [ih (acc ++ [x]) hacc' hl'.2 hcross']
    simp

theorem sortKeyDesc_of_sorted {α : Type} (key : α → Nat) (l : List α)
    (hl : SortedDesc key l) : sortKeyDesc key l = l := by
  have := foldl_ins_of_sorted key l [] (List.Pairwise.nil) hl
    (by intro a ha; cases ha)
  simpa [sortKeyDesc] using this

theorem key_toMap_eq {ts' : List Task} (hnd : (ts'.map Task.id).Nodup)
    {u : Task} (hu : u ∈ ts') :
    priorityKey (toMap ts') u.id = taskKey u := by
  unfold priorityKey
  rw [mapGet_toMap hnd hu]
  rfl

theorem mem_prioClass {n : Nat} {ts : List Task} {u : Task}
    (h : u ∈ prioClass n ts) : taskKey u = n ∧ u ∈ ts := by
  have h' := List.mem_filter.mp h
  exact ⟨by simpa using h'.2, h'.1⟩

theorem mem_sorted3 {ts : List Task} {u : Task} :
    u ∈ sorted3 ts ↔ u ∈ ts := by
  constructor
  · intro h
    rcases List.mem_append.mp h with h12 | h1
    · rcases List.mem_append.mp h12 with h3 | h2
      · exact (mem_prioClass h3).2
      · exact (mem_prioClass h2).2
    · exact (mem_prioClass h1).2
  · intro h
    rcases taskKey_cases u with hk | hk | hk
    · exact List.mem_append_right _ (List.mem_filter.mpr ⟨h, by simp [hk]⟩)
    · exact List.mem_append_left _
        (List.mem_append_right _ (List.mem_filter.mpr ⟨h, by simp [hk]⟩))
    · exact List.mem_append_left _
        (List.mem_append_left _ (List.mem_filter.mpr ⟨h, by simp [hk]⟩))

theorem sorted3_sorted (ts : List Task) :
    (sorted3 ts).Pairwise fun u v => taskKey v ≤ taskKey u := by
  unfold sorted3
  rw [List.pairwise_append]
  refine ⟨?_, ?_, ?_⟩
  · rw [List.pairwise_append]
    refine ⟨List.pairwise_of_forall_mem_list ?_,
      List.pairwise_of_forall_mem_list ?_, ?_⟩
    · intro a ha b hb
      rw [(mem_prioClass ha).1, (mem_prioClass hb).1]
    · intro a ha b hb
      rw [(mem_prioClass ha).1, (mem_prioClass hb).1]
    · intro a ha b hb
      rw [(mem_prioClass ha).1, (mem_prioClass hb).1]
      omega
  · refine List.pairwise_of_forall_mem_list ?_
    intro a ha b hb
    rw [(mem_prioClass ha).1, (mem_prioClass hb).1]
  · intro a ha b hb
    have hkb := (mem_prioClass hb).1
    rcases List.mem_append.mp ha with h3 | h2
    · rw [hkb, (mem_prioClass h3).1]; omega
    · rw [hkb, (mem_prioClass h2).1]; omega

theorem nodup_of_append_singleton {ts : List Task} {t : Task}
    (hnd : ((ts ++ [t]).map Task.id).Nodup) :
    (ts.map Task.id).Nodup ∧ t.id ∉ ts.map Task.id := by
  rw [List.map_append, List.nodup_append] at hnd
  refine ⟨hnd.1, fun hmem => ?_⟩
  exact hnd.2.2 hmem (by simp)

/-- The queue a sequence of fresh-id `add` calls builds: the map is the
insertion-ordered association list, and the priority queue is the
stable priority order (classes high, medium, low, each in insertion
order). -/
theorem buildQueue_spec (ts : List Task) (hnd : (ts.map Task.id).Nodup) :
    (buildQueue ts).tasks = toMap ts ∧
    (buildQueue ts).priorityQueue = (sorted3 ts).map Task.id := by
  induction ts using List.reverseRecOn with
  | nil => exact ⟨rfl, rfl⟩
  | append_singleton ts t ih =>
    obtain ⟨hnd', hfresh⟩ := nodup_of_append_singleton hnd
    obtain ⟨hT, hP⟩ := ih hnd'
    have hbuild : buildQueue (ts ++ [t]) = (buildQueue ts).add t := by
      simp [buildQueue, List.foldl_append]
    have hTmap : mapSet (buildQueue ts).tasks t.id t = toMap (ts ++ [t]) := by
      rw [hT, mapSet_append_of_not_mem _ _ _ (by rw [toMap_keys]; exact hfresh)]
      simp [toMap]
    have htasks : (buildQueue (ts ++ [t])).tasks = toMap (ts ++ [t]) := by
      rw [hbuild]
      exact hTmap
    refine ⟨htasks, ?_⟩
    rw [hbuild]
    show sortKeyDesc (priorityKey (mapSet (buildQueue ts).tasks t.id t))
      ((buildQueue ts).priorityQueue ++ [t.id]) = _
    rw [hTmap, hP]
    set key' := priorityKey (toMap (ts ++ [t])) with hkey'
    have hkeyA : ∀ u ∈ ts ++ [t], key' u.id = taskKey u := by
      intro u hu
      exact key_toMap_eq hnd hu
    have hkeyC : ∀ (n : Nat) (u : Task), u ∈ prioClass n ts →
        key' u.id = n := by
      intro n u hu
      rw [hkeyA u (List.mem_append_left _ (mem_prioClass hu).2)]
      exact (mem_prioClass hu).1
    have hsorted : SortedDesc key' ((sorted3 ts).map Task.id) := by
      rw [SortedDesc, List.pairwise_map]
      refine (sorted3_sorted ts).imp_of_mem ?_
      intro a b ha hb hle
      rw [hkeyA a (List.mem_append_left _ (mem_sorted3.mp ha)),
        hkeyA b (List.mem_append_left _ (mem_sorted3.mp hb))]
      exact hle
    have hstep : sortKeyDesc key' ((sorted3 ts).map Task.id ++ [t.id]) =
        insKeyDesc key' t.id ((sorted3 ts).map Task.id) := by
      rw [sortKeyDesc, List.foldl_append, ← sortKeyDesc]
      rw [sortKeyDesc_of_sorted key' _ hsorted]
      rfl
    rw [hstep]
    have hkt : key' t.id = taskKey t := hkeyA t (by simp)
    have hsplit : ∀ n : Nat, prioClass n (ts ++ [t]) =
        prioClass n ts ++ prioClass n [t] := by
      intro n
      simp [prioClass, List.filter_append]
    rcases taskKey_cases t with hk | hk | hk
    · -- low priority: t goes to the very end
      have hins : insKeyDesc key' t.id ((sorted3 ts).map Task.id) =
          (sorted3 ts).map Task.id ++ [t.id] := by
        have hA : ∀ a ∈ (sorted3 ts).map Task.id, key' t.id ≤ key' a := by
          intro a ha
          obtain ⟨u, hu, rfl⟩ := List.mem_map.mp ha
          rw [hkt, hk, hkeyA u (List.mem_append_left _ (mem_sorted3.mp hu))]
          rcases taskKey_cases u with h | h | h <;> omega
        have := insKeyDesc_eq_append key' t.id ((sorted3 ts).map Task.id) []
          hA (by intro b hb; cases hb)
        simpa using this
      rw [hins]
      have h3 : prioClass 3 (ts ++ [t]) = prioClass 3 ts := by
        rw [hsplit]; simp [prioClass, List.filter, hk]
      have h2 : prioClass 2 (ts ++ [t]) = prioClass 2 ts := by
        rw [hsplit]; simp [prioClass, List.filter, hk]
      have h1 : prioClass 1 (ts ++ [t]) = prioClass 1 ts ++ [t] := by
        rw [hsplit]; simp [prioClass, List.filter, hk]
      unfold sorted3
      rw [h3, h2, h1]
      simp [List.map_append, List.append_assoc]
    · -- medium priority: t goes between the medium and low classes
      have hins : insKeyDesc key' t.id ((sorted3 ts).map Task.id) =
          ((prioClass 3 ts).map Task.id ++ (prioClass 2 ts).map Task.id) ++
            t.id :: (prioClass 1 ts).map Task.id := by
        have hshape : (sorted3 ts).map Task.id =
            ((prioClass 3 ts).map Task.id ++ (prioClass 2 ts).map Task.id) ++
              (prioClass 1 ts).map Task.id := by
          unfold sorted3
          simp [List.map_append]
        rw [hshape]
        refine insKeyDesc_eq_append key' t.id _ _ ?_ ?_
        · intro a ha
          rcases List.mem_append.mp ha with h3 | h2
          · obtain ⟨u, hu, rfl⟩ := List.mem_map.mp h3
            rw [hkt, hk, hkeyC 3 u hu]; omega
          · obtain ⟨u, hu, rfl⟩ := List.mem_map.mp h2
            rw [hkt, hk, hkeyC 2 u hu]
        · intro b hb
          obtain ⟨u, hu, rfl⟩ := List.mem_map.mp hb
          rw [hkt, hk, hkeyC 1 u hu]
          omega
      rw [hins]
      have h3 : prioClass 3 (ts ++ [t]) = prioClass 3 ts := by
        rw [hsplit]; simp [prioClass, List.filter, hk]
      have h2 : prioClass 2 (ts ++ [t]) = prioClass 2 ts ++ [t] := by
        rw [hsplit]; simp [prioClass, List.filter, hk]
      have h1 : prioClass 1 (ts ++ [t]) = prioClass 1 ts := by
        rw [hsplit]; simp [prioClass, List.filter, hk]
      unfold sorted3
      rw [h3, h2, h1]
      simp [List.map_append, List.append_assoc]
    · -- high priority: t goes right after the high class
      have hins : insKeyDesc key' t.id ((sorted3 ts).map Task.id) =
          (prioClass 3 ts).map Task.id ++
            t.id :: ((prioClass 2 ts).map Task.id ++
              (prioClass 1 ts).map Task.id) := by
        have hshape : (sorted3 ts).map Task.id =
            (prioClass 3 ts).map Task.id ++
              ((prioClass 2 ts).map Task.id ++
                (prioClass 1 ts).map Task.id) := by
          unfold sorted3
          simp [List.map_append, List.append_assoc]
        rw [hshape]
        refine insKeyDesc_eq_append key' t.id _ _ ?_ ?_
        · intro a ha
          obtain ⟨u, hu, rfl⟩ := List.mem_map.mp ha
          rw [hkt, hk, hkeyC 3 u hu]
        · intro b hb
          rcases List.mem_append.mp hb with h2 | h1
          · obtain ⟨u, hu, rfl⟩ := List.mem_map.mp h2
            rw [hkt, hk, hkeyC 2 u hu]; omega
          · obtain ⟨u, hu, rfl⟩ := List.mem_map.mp h1
            rw [hkt, hk, hkeyC 1 u hu]; omega
      rw [hins]
      have h3 : prioClass 3 (ts ++ [t]) = prioClass 3 ts ++ [t] := by
        rw [hsplit]; simp [prioClass, List.filter, hk]
      have h2 : prioClass 2 (ts ++ [t]) = prioClass 2 ts := by
        rw [hsplit]; simp [prioClass, List.filter, hk]
      have h1 : prioClass 1 (ts ++ [t]) = prioClass 1 ts := by
        rw [hsplit]; simp [prioClass, List.filter, hk]
      unfold sorted3
      rw [h3, h2, h1]
      simp [List.map_append, List.append_assoc]


theorem getNextAux_cons_found {tasks : List (String × Task)} {id : String}
    {rest : List String} {t : Task} (hm : mapGet tasks id = some t)
    (hc : (t.status == AgentStatus.pending &&
      areDependenciesMet tasks t) = true) :
    getNextAux tasks (id :: rest) = some (t, rest) := by
  simp only [getNextAux, hm, hc, if_true]

theorem getNextAux_cons_skip {tasks : List (String × Task)} {id : String}
    {rest : List String} {t : Task} (hm : mapGet tasks id = some t)
    (hc : (t.status == AgentStatus.pending &&
      areDependenciesMet tasks t) = false) :
    getNextAux tasks (id :: rest) =
      match getNextAux tasks rest with
      | some (t', rest') => some (t', id :: rest')
      | none => none := by
  simp only [getNextAux, hm, hc, Bool.false_eq_true, if_false]

/-- Scanning the mapped ids of tasks of the queue finds exactly the
first eligible task, `find?`-style. -/
theorem scan_map_eq_find (ts : List Task) (hnd : (ts.map Task.id).Nodup) :
    ∀ l : List Task, (∀ x ∈ l, x ∈ ts) →
      (getNextAux (toMap ts) (l.map Task.id)).map Prod.fst =
        l.find? (eligB ts) := by
  intro l
  induction l with
  | nil => intro _; rfl
  | cons x xs ih =>
    intro hsub
    have hx : mapGet (toMap ts) x.id = some x :=
      mapGet_toMap hnd (hsub x (List.mem_cons_self ..))
    by_cases hc : eligB ts x = true
    · rw [List.map_cons, getNextAux_cons_found hx hc]
      simp [List.find?_cons, hc]
    · have hc' : eligB ts x = false := Bool.eq_false_iff.mpr hc
      rw [List.map_cons, getNextAux_cons_skip hx hc']
      have ih' := ih fun y hy => hsub y (List.mem_cons_of_mem _ hy)
      cases haux : getNextAux (toMap ts) (xs.map Task.id) with
      | none =>
        rw [haux] at ih'
        simp [List.find?_cons, hc', ← ih']
      | some pr =>
        rw [haux] at ih'
        obtain ⟨t0, rest0⟩ := pr
        simp only [Option.map_some'] at ih'
        simp [List.find?_cons, hc', ← ih']

/-- `find?` over the stable priority order equals the claim's
specification: the first task in insertion order among those of maximal
priority. -/
theorem find?_sorted3_eq_specNext (ts : List Task) :
    (sorted3 ts).find? (eligB ts) = specNext ts := by
  have hcls : ∀ n : Nat, (prioClass n ts).find? (eligB ts) =
      (ts.filter (eligB ts)).find? fun t => taskKey t == n := by
    intro n
    rw [prioClass, find?_filter, find?_filter]
    exact find?_congr' _ _ _ fun a => Bool.and_comm _ _
  have hchain : (sorted3 ts).find? (eligB ts) =
      match (ts.filter (eligB ts)).find? (fun t => taskKey t == 3) with
      | some a => some a
      | none =>
        match (ts.filter (eligB ts)).find? (fun t => taskKey t == 2) with
        | some a => some a
        | none => (ts.filter (eligB ts)).find? fun t => taskKey t == 1 := by
    unfold sorted3
    rw [find?_append', find?_append', hcls 3, hcls 2, hcls 1]
    cases (ts.filter (eligB ts)).find? fun t => taskKey t == 3 with
    | some a => rfl
    | none =>
      cases (ts.filter (eligB ts)).find? fun t => taskKey t == 2 <;> rfl
  rw [hchain]
  unfold specNext
  cases hE : ts.filter (eligB ts) with
  | nil => simp
  | cons e E' =>
    rw [if_neg (by simp)]
    rw [← hE]
    set E := ts.filter (eligB ts) with hEdef
    have hmemE : e ∈ E := by rw [hE]; exact List.mem_cons_self ..
    have hub3 : specMaxPrio E ≤ 3 := by
      refine foldl_max_le taskKey E 0 3 (by omega) ?_
      intro t _
      rcases taskKey_cases t with h | h | h <;> omega
    by_cases h3 : ∃ t ∈ E, taskKey t = 3
    · obtain ⟨t3, ht3, hk3⟩ := h3
      have hm3 : specMaxPrio E = 3 :=
        Nat.le_antisymm hub3 (hk3 ▸ le_foldl_max taskKey E 0 t3 ht3)
      have hsome : ((E.find? fun t => taskKey t == 3)).isSome := by
        rw [List.find?_isSome]
        exact ⟨t3, ht3, by simp [hk3]⟩
      obtain ⟨a, ha⟩ := Option.isSome_iff_exists.mp hsome
      rw [ha, hm3]
      exact ha.symm
    · push_neg at h3
      have hf3 : (E.find? fun t => taskKey t == 3) = none := by
        rw [List.find?_eq_none]
        intro t ht
        simpa using h3 t ht
      rw [hf3]
      by_cases h2 : ∃ t ∈ E, taskKey t = 2
      · obtain ⟨t2, ht2, hk2⟩ := h2
        have hub2 : specMaxPrio E ≤ 2 := by
          refine foldl_max_le taskKey E 0 2 (by omega) ?_
          intro t ht
          rcases taskKey_cases t with h | h | h
          · omega
          · omega
          · exact absurd h (h3 t ht)
        have hm2 : specMaxPrio E = 2 :=
          Nat.le_antisymm hub2 (hk2 ▸ le_foldl_max taskKey E 0 t2 ht2)
        have hsome : ((E.find? fun t => taskKey t == 2)).isSome := by
          rw [List.find?_isSome]
          exact ⟨t2, ht2, by simp [hk2]⟩
        obtain ⟨a, ha⟩ := Option.isSome_iff_exists.mp hsome
        rw [ha, hm2]
        exact ha.symm
      · push_neg at h2
        have hall1 : ∀ t ∈ E, taskKey t = 1 := by
          intro t ht
          rcases taskKey_cases t with h | h | h
          · exact h
          · exact absurd h (h2 t ht)
          · exact absurd h (h3 t ht)
        have hf2 : (E.find? fun t => taskKey t == 2) = none := by
          rw [List.find?_eq_none]
          intro t ht
          simpa using fun e => h2 t ht e
        have hm1 : specMaxPrio E = 1 := by
          refine Nat.le_antisymm ?_ ?_
          · refine foldl_max_le taskKey E 0 1 (by omega) ?_
            intro t ht
            rw [hall1 t ht]
          · exact (hall1 e hmemE) ▸ le_foldl_max taskKey E 0 e hmemE
        rw [hf2, hm1]

/-- C3: on a queue built by adding tasks with pairwise-distinct ids,
`getNext` returns exactly the specification's choice — the first task
in insertion order among the eligible tasks (pending, all dependency
ids mapping to completed tasks) of maximal priority, with its status
set to running, `none` when no task is eligible — and writes the
returned task back into the map as running. -/
theorem C3_next_ready_selection (ts : List Task)
    (hnd : (ts.map Task.id).Nodup) :
    ((buildQueue ts).getNext.fst =
      (specNext ts).map fun t => { t with status := AgentStatus.running }) ∧
    (∀ t : Task, specNext ts = some t →
      ((buildQueue ts).getNext.snd).getById t.id =
        some { t with status := AgentStatus.running }) := by
  obtain ⟨hT, hP⟩ := buildQueue_spec ts hnd
  have hscan : (getNextAux (buildQueue ts).tasks
      (buildQueue ts).priorityQueue).map Prod.fst = specNext ts := by
    rw [hT, hP, scan_map_eq_find ts hnd (sorted3 ts)
      (fun x hx => mem_sorted3.mp hx)]
    exact find?_sorted3_eq_specNext ts
  constructor
  · unfold TaskQueue.getNext
    cases haux : getNextAux (buildQueue ts).tasks
        (buildQueue ts).priorityQueue with
    | none =>
      rw [haux] at hscan
      simp [← hscan]
    | some pr =>
      obtain ⟨t0, rest0⟩ := pr
      rw [haux] at hscan
      simp only [Option.map_some'] at hscan
      simp [← hscan]
  · intro t ht
    have hfst : (getNextAux (buildQueue ts).tasks
        (buildQueue ts).priorityQueue).map Prod.fst = some t := by
      rw [hscan, ht]
    obtain ⟨pr, hpr, hfst1⟩ := Option.map_eq_some'.mp hfst
    obtain ⟨t0, rest0⟩ := pr
    cases hfst1
    unfold TaskQueue.getNext
    simp only [hpr]
    exact mapGet_set_self ..

/-- Three tasks exercising C3: a completed dependency, then a low- and
a high-priority eligible task. -/
def c3Tasks : List Task :=
  [⟨"a", "base work", "coder", Priority.medium, [], AgentStatus.completed, 0, 0⟩,
   ⟨"b", "low follow-up", "tester", Priority.low, ["a"], AgentStatus.pending, 0, 0⟩,
   ⟨"c", "high follow-up", "security", Priority.high, ["a"], AgentStatus.pending, 0, 0⟩]

theorem C3_next_ready_selection_witness :
    (buildQueue c3Tasks).getNext.fst =
      (specNext c3Tasks).map fun t => { t with status := AgentStatus.running } :=
  (C3_next_ready_selection c3Tasks (by decide)).1

/-! ## C8: context eviction.

Bookkeeping for the memory manager: entry totals and key discipline
under the JS `Map` operations. -/

/-- Total entry count, summed over all producer keys. -/
def totalEntries (m : MemoryManager) : Nat :=
  (m.cache.map fun p => p.2.length).sum

/-- Every entry of the store, in key insertion order. -/
def allEntries (m : MemoryManager) : List MemoryEntry :=
  m.cache.flatMap Prod.snd

theorem mapGet_some_mem_keys {α : Type} {m : List (String × α)} {k : String}
    {v : α} (h : mapGet m k = some v) : k ∈ m.map Prod.fst := by
  exact List.mem_map_of_mem Prod.fst (mapGet_mem h)

theorem mem_keys_mapSet {α : Type} (m : List (String × α)) (k : String)
    (v : α) (a : String) :
    a ∈ (mapSet m k v).map Prod.fst ↔ a ∈ m.map Prod.fst ∨ a = k := by
  induction m with
  | nil => simp [mapSet]
  | cons p rest ih =>
    by_cases hp : p.1 = k
    · rw [show p = (p.1, p.2) from rfl]
      simp only [mapSet, if_pos hp]
      subst hp
      simp only [List.map_cons, List.mem_cons]
      tauto
    · rw [show p = (p.1, p.2) from rfl]
      simp only [mapSet, if_neg hp, List.map_cons, List.mem_cons]
      rw [ih]
      tauto

theorem nodup_keys_mapSet {α : Type} {m : List (String × α)} {k : String}
    {v : α} (h : NoDupKeys m) : NoDupKeys (mapSet m k v) := by
  induction m with
  | nil => simp [mapSet, NoDupKeys]
  | cons p rest ih =>
    obtain ⟨hp, hrest⟩ := List.nodup_cons.mp h
    by_cases hpk : p.1 = k
    · rw [show p = (p.1, p.2) from rfl]
      simp only [mapSet, if_pos hpk]
      subst hpk
      exact List.nodup_cons.mpr ⟨hp, hrest⟩
    · rw [show p = (p.1, p.2) from rfl]
      simp only [mapSet, if_neg hpk]
      refine List.nodup_cons.mpr ⟨?_, ih hrest⟩
      intro hin
      rcases (mem_keys_mapSet rest k v p.1).mp hin with h1 | h2
      · exact hp h1
      · exact hpk h2

theorem keys_mapDelete_sublist {α : Type} (m : List (String × α))
    (k : String) :
    ((mapDelete m k).map Prod.fst).Sublist (m.map Prod.fst) := by
  induction m with
  | nil => simp [mapDelete]
  | cons p rest ih =>
    by_cases hp : p.1 = k
    · rw [show p = (p.1, p.2) from rfl]
      simp only [mapDelete, if_pos hp]
      exact (List.sublist_cons_self ..)
    · rw [show p = (p.1, p.2) from rfl]
      simp only [mapDelete, if_neg hp, List.map_cons]
      exact ih.cons₂ p.1

theorem nodup_keys_mapDelete {α : Type} {m : List (String × α)} {k : String}
    (h : NoDupKeys m) : NoDupKeys (mapDelete m k) :=
  (keys_mapDelete_sublist m k).nodup h

/-- Replacing the value under an existing key shifts the total by the
length difference. -/
theorem sumLens_mapSet_some {α : Type}
    (m : List (String × List α)) (k : String) (es v : List α)
    (hget : mapGet m k = some es) :
    ((mapSet m k v).map fun p => p.2.length).sum + es.length =
      (m.map fun p => p.2.length).sum + v.length := by
  induction m with
  | nil => cases hget
  | cons p rest ih =>
    by_cases hp : p.1 = k
    · rw [show p = (p.1, p.2) from rfl] at hget ⊢
      simp only [mapGet, if_pos hp] at hget
      cases hget
      simp only [mapSet, if_pos hp]
      simp [Nat.add_comm, Nat.add_assoc, Nat.add_left_comm]
    · rw [show p = (p.1, p.2) from rfl] at hget ⊢
      simp only [mapGet, if_neg hp] at hget
      simp only [mapSet, if_neg hp, List.map_cons, List.sum_cons]
      have := ih hget
      omega

theorem sumLens_mapSet_none {α : Type}
    (m : List (String × List α)) (k : String) (v : List α)
    (hget : mapGet m k = none) :
    ((mapSet m k v).map fun p => p.2.length).sum =
      (m.map fun p => p.2.length).sum + v.length := by
  induction m with
  | nil => simp [mapSet]
  | cons p rest ih =>
    rw [show p = (p.1, p.2) from rfl] at hget ⊢
    by_cases hp : p.1 = k
    · simp only [mapGet, if_pos hp] at hget
      cases hget
    · simp only [mapGet, if_neg hp] at hget
      simp only [mapSet, if_neg hp, List.map_cons, List.sum_cons]
      rw [ih hget]
      omega

theorem sumLens_mapDelete_some {α : Type}
    (m : List (String × List α)) (k : String) (es : List α)
    (hget : mapGet m k = some es) :
    ((mapDelete m k).map fun p => p.2.length).sum + es.length =
      (m.map fun p => p.2.length).sum := by
  induction m with
  | nil => cases hget
  | cons p rest ih =>
    rw [show p = (p.1, p.2) from rfl] at hget ⊢
    by_cases hp : p.1 = k
    · simp only [mapGet, if_pos hp] at hget
      cases hget
      simp only [mapDelete, if_pos hp]
      simp [Nat.add_comm]
    · simp only [mapGet, if_neg hp] at hget
      simp only [mapDelete, if_neg hp, List.map_cons, List.sum_cons]
      have := ih hget
      omega

/-- A `store` push adds exactly one entry to the total. -/
theorem sumLens_store_push (c : List (String × List MemoryEntry))
    (key : String) (e : MemoryEntry) :
    ((mapSet c key ((mapGet c key).getD [] ++ [e])).map
      fun p => p.2.length).sum = (c.map fun p => p.2.length).sum + 1 := by
  cases hget : mapGet c key with
  | none =>
    rw [sumLens_mapSet_none c key _ hget]
    simp [hget]
  | some es =>
    have h := sumLens_mapSet_some c key es ((mapGet c key).getD [] ++ [e]) hget
    rw [hget] at h
    simp only [Option.getD_some] at h ⊢
    simp only [List.length_append, List.length_singleton] at h
    omega

theorem sumLens_ageFilter_le (now : Nat)
    (c : List (String × List MemoryEntry)) :
    ((ageFilterCache now c).map fun p => p.2.length).sum ≤
      (c.map fun p => p.2.length).sum := by
  induction c with
  | nil => simp [ageFilterCache]
  | cons p rest ih =>
    simp only [ageFilterCache, List.filterMap_cons] at ih ⊢
    cases hv : (p.2.filter fun e => now - e.timestamp < maxAgeMs).isEmpty
    · simp only [hv, Bool.false_eq_true, if_false, List.map_cons,
        List.sum_cons]
      have hle := List.length_filter_le
        (fun e => decide (now - e.timestamp < maxAgeMs)) p.2
      omega
    · simp only [hv, if_true]
      have hle := List.length_filter_le
        (fun e => decide (now - e.timestamp < maxAgeMs)) p.2
      simp only [List.map_cons, List.sum_cons]
      omega

theorem keys_ageFilter_sublist (now : Nat)
    (c : List (String × List MemoryEntry)) :
    ((ageFilterCache now c).map Prod.fst).Sublist (c.map Prod.fst) := by
  induction c with
  | nil => simp [ageFilterCache]
  | cons p rest ih =>
    simp only [ageFilterCache, List.filterMap_cons]
    cases hv : (p.2.filter fun e => now - e.timestamp < maxAgeMs).isEmpty
    · simp only [hv, Bool.false_eq_true, if_false, List.map_cons]
      exact ih.cons₂ p.1
    · simp only [hv, if_true, List.map_cons]
      exact ih.cons p.1

theorem nodup_keys_ageFilter (now : Nat)
    {c : List (String × List MemoryEntry)} (h : NoDupKeys c) :
    NoDupKeys (ageFilterCache now c) :=
  (keys_ageFilter_sublist now c).nodup h

theorem age_of_mem_ageFilter (now : Nat)
    (c : List (String × List MemoryEntry)) (e : MemoryEntry)
    (h : e ∈ (ageFilterCache now c).flatMap Prod.snd) :
    now - e.timestamp < maxAgeMs := by
  induction c with
  | nil => simp [ageFilterCache] at h
  | cons p rest ih =>
    simp only [ageFilterCache, List.filterMap_cons] at h
    cases hv : (p.2.filter fun ent => now - ent.timestamp < maxAgeMs).isEmpty
    · rw [hv] at h
      simp only [Bool.false_eq_true, if_false, List.flatMap_cons] at h
      rcases List.mem_append.mp h with h1 | h2
      · have := List.mem_filter.mp h1
        simpa using this.2
      · exact ih h2
    · rw [hv] at h
      simp only [if_true] at h
      exact ih h

theorem mem_flatMapSnd_mapSet {α : Type} (c : List (String × List α))
    (k : String) (v : List α) (e : α)
    (h : e ∈ (mapSet c k v).flatMap Prod.snd) :
    e ∈ v ∨ e ∈ c.flatMap Prod.snd := by
  induction c with
  | nil => simpa [mapSet] using h
  | cons p rest ih =>
    by_cases hp : p.1 = k
    · rw [show p = (p.1, p.2) from rfl] at h
      simp only [mapSet, if_pos hp, List.flatMap_cons] at h
      rcases List.mem_append.mp h with h1 | h2
      · exact Or.inl h1
      · refine Or.inr ?_
        simp only [List.flatMap_cons, List.mem_append]
        exact Or.inr h2
    · rw [show p = (p.1, p.2) from rfl] at h
      simp only [mapSet, if_neg hp, List.flatMap_cons] at h
      rcases List.mem_append.mp h with h1 | h2
      · refine Or.inr ?_
        simp only [List.flatMap_cons, List.mem_append]
        exact Or.inl h1
      · rcases ih h2 with hv | hc
        · exact Or.inl hv
        · refine Or.inr ?_
          simp only [List.flatMap_cons, List.mem_append]
          exact Or.inr hc

theorem mem_flatMapSnd_mapDelete {α : Type} (c : List (String × List α))
    (k : String) (e : α)
    (h : e ∈ (mapDelete c k).flatMap Prod.snd) :
    e ∈ c.flatMap Prod.snd := by
  induction c with
  | nil => simp [mapDelete] at h
  | cons p rest ih =>
    by_cases hp : p.1 = k
    · rw [show p = (p.1, p.2) from rfl] at h
      simp only [mapDelete, if_pos hp] at h
      simp only [List.flatMap_cons, List.mem_append]
      exact Or.inr h
    · rw [show p = (p.1, p.2) from rfl] at h
      simp only [mapDelete, if_neg hp, List.flatMap_cons,
        List.mem_append] at h ⊢
      rcases h with h1 | h2
      · exact Or.inl h1
      · exact Or.inr (ih h2)

theorem mem_removeAtIndex (c : List (String × List MemoryEntry))
    (key : String) (idx : Nat) (e : MemoryEntry)
    (h : e ∈ (removeAtIndex c key idx).flatMap Prod.snd) :
    e ∈ c.flatMap Prod.snd := by
  unfold removeAtIndex at h
  cases hget : mapGet c key with
  | none => rw [hget] at h; exact h
  | some es =>
    rw [hget] at h
    simp only at h
    by_cases hempty : (es.eraseIdx idx).isEmpty
    · rw [if_pos hempty] at h
      exact mem_flatMapSnd_mapDelete c key e h
    · rw [if_neg hempty] at h
      rcases mem_flatMapSnd_mapSet c key _ e h with h1 | h2
      · have he : e ∈ es := (List.eraseIdx_sublist es idx).subset h1
        have hpair : (key, es) ∈ c := mapGet_mem hget
        exact List.mem_flatMap.mpr ⟨(key, es), hpair, he⟩
      · exact h2

theorem mem_enumFrom_lt {α : Type} (l : List α) :
    ∀ (n : Nat) (p : Nat × α), p ∈ l.enumFrom n → p.1 < n + l.length := by
  induction l with
  | nil => intro n p h; cases h
  | cons x xs ih =>
    intro n p h
    rcases List.mem_cons.mp h with rfl | h2
    · simp
    · have := ih (n + 1) p h2
      simp only [List.length_cons]
      omega

theorem length_indexedEntries (c : List (String × List MemoryEntry)) :
    (indexedEntries c).length = (c.map fun p => p.2.length).sum := by
  induction c with
  | nil => rfl
  | cons p rest ih =>
    simp only [indexedEntries, List.flatMap_cons, List.length_append,
      List.length_map, List.enum_length, List.map_cons,
      List.sum_cons] at ih ⊢
    omega

theorem indexedEntries_valid {c : List (String × List MemoryEntry)}
    (hnd : NoDupKeys c) :
    ∀ w ∈ indexedEntries c, ∃ es, mapGet c w.1 = some es ∧
      w.2.2 < es.length := by
  induction c with
  | nil => intro w hw; cases hw
  | cons p rest ih =>
    obtain ⟨hp, hrest⟩ := List.nodup_cons.mp hnd
    intro w hw
    simp only [indexedEntries, List.flatMap_cons, List.mem_append] at hw
    rcases hw with h1 | h2
    · obtain ⟨q, hq, rfl⟩ := List.mem_map.mp h1
      refine ⟨p.2, ?_, ?_⟩
      · rw [show p = (p.1, p.2) from rfl]
        simp [mapGet]
      · have := mem_enumFrom_lt p.2 0 q (by simpa [List.enum] using hq)
        simpa using this
    · obtain ⟨es, hget, hlt⟩ := ih hrest w h2
      refine ⟨es, ?_, hlt⟩
      rw [show p = (p.1, p.2) from rfl]
      have hne : ¬ p.1 = w.1 := by
        intro hEq
        exact hp (hEq ▸ mapGet_some_mem_keys hget)
      simp [mapGet, hne, hget]

theorem insKeyAsc_perm {α : Type} (key : α → Nat) (x : α) (l : List α) :
    (insKeyAsc key x l).Perm (x :: l) := by
  induction l with
  | nil => simp [insKeyAsc]
  | cons y ys ih =>
    by_cases h : key y ≤ key x
    · simp only [insKeyAsc, if_pos h]
      exact (ih.cons y).trans (List.Perm.swap x y ys)
    · simp [insKeyAsc, if_neg h]

theorem foldl_insKeyAsc_perm {α : Type} (key : α → Nat) :
    ∀ (l acc : List α),
      (l.foldl (fun a y => insKeyAsc key y a) acc).Perm (acc ++ l) := by
  intro l
  induction l with
  | nil => intro acc; simp
  | cons x xs ih =>
    intro acc
    have h1 := ih (insKeyAsc key x acc)
    have h2 : (insKeyAsc key x acc ++ xs).Perm (acc ++ x :: xs) :=
      ((insKeyAsc_perm key x acc).append_right xs).trans List.perm_middle.symm
    exact h1.trans h2

theorem sortKeyAsc_perm {α : Type} (key : α → Nat) (l : List α) :
    (sortKeyAsc key l).Perm l := by
  simpa [sortKeyAsc] using foldl_insKeyAsc_perm key l []

theorem length_eraseIdx_lt {α : Type} (l : List α) :
    ∀ i : Nat, i < l.length → (l.eraseIdx i).length + 1 = l.length := by
  induction l with
  | nil => intro i h; cases h
  | cons x xs ih =>
    intro i h
    cases i with
    | zero => simp [List.eraseIdx]
    | succ i =>
      simp only [List.eraseIdx, List.length_cons]
      have := ih i (by simpa using Nat.lt_of_succ_lt_succ h)
      omega

/-- A valid splice removes exactly one entry from the total. -/
theorem sumLens_removeAtIndex {c : List (String × List MemoryEntry)}
    {key : String} {idx : Nat} {es : List MemoryEntry}
    (hget : mapGet c key = some es) (hidx : idx < es.length) :
    ((removeAtIndex c key idx).map fun p => p.2.length).sum + 1 =
      (c.map fun p => p.2.length).sum := by
  unfold removeAtIndex
  rw [hget]
  simp only
  have hlen := length_eraseIdx_lt es idx hidx
  by_cases hempty : (es.eraseIdx idx).isEmpty
  · rw [if_pos hempty]
    have h0 : es.length = 1 := by
      have : (es.eraseIdx idx).length = 0 := by
        simpa [List.isEmpty_iff_length_eq_zero] using hempty
      omega
    have := sumLens_mapDelete_some c key es hget
    omega
  · rw [if_neg hempty]
    have := sumLens_mapSet_some c key es (es.eraseIdx idx) hget
    omega

theorem nodup_keys_removeAtIndex {c : List (String × List MemoryEntry)}
    {key : String} {idx : Nat} (hnd : NoDupKeys c) :
    NoDupKeys (removeAtIndex c key idx) := by
  unfold removeAtIndex
  cases hget : mapGet c key with
  | none => exact hnd
  | some es =>
    simp only
    by_cases hempty : (es.eraseIdx idx).isEmpty
    · rw [if_pos hempty]
      exact nodup_keys_mapDelete hnd
    · rw [if_neg hempty]
      exact nodup_keys_mapSet hnd

/-- `cleanup` on a store at most one entry over the cap brings it
within the cap, keeps no over-age entry, and keeps keys distinct. -/
theorem cleanup_bounds (m : MemoryManager) (now : Nat)
    (hnd : NoDupKeys m.cache)
    (htot : totalEntries m ≤ maxEntriesCap + 1) :
    totalEntries (m.cleanup now) ≤ maxEntriesCap ∧
    (∀ e ∈ allEntries (m.cleanup now), now - e.timestamp < maxAgeMs) ∧
    NoDupKeys (m.cleanup now).cache := by
  have hagedle := sumLens_ageFilter_le now m.cache
  have hndA : NoDupKeys (ageFilterCache now m.cache) :=
    nodup_keys_ageFilter now hnd
  simp only [MemoryManager.cleanup]
  by_cases hover : maxEntriesCap <
      ((ageFilterCache now m.cache).map fun p => p.2.length).sum
  · rw [if_pos hover]
    have htA : ((ageFilterCache now m.cache).map fun p => p.2.length).sum =
        maxEntriesCap + 1 := by
      have := htot
      unfold totalEntries at this
      omega
    have h1 : ((ageFilterCache now m.cache).map fun p => p.2.length).sum -
        maxEntriesCap = 1 := by omega
    rw [h1]
    have hlen : (sortKeyAsc (fun q => q.2.1.timestamp)
        (indexedEntries (ageFilterCache now m.cache))).length =
        maxEntriesCap + 1 := by
      rw [(sortKeyAsc_perm _ _).length_eq, length_indexedEntries, htA]
    obtain ⟨w, rest, hw⟩ : ∃ w rest, sortKeyAsc (fun q => q.2.1.timestamp)
        (indexedEntries (ageFilterCache now m.cache)) = w :: rest := by
      cases hs : sortKeyAsc (fun q => q.2.1.timestamp)
          (indexedEntries (ageFilterCache now m.cache)) with
      | nil => rw [hs] at hlen; cases hlen
      | cons a b => exact ⟨a, b, rfl⟩
    rw [hw]
    simp only [List.take_succ_cons, List.take_zero, List.foldl_cons,
      List.foldl_nil]
    have hwmem : w ∈ indexedEntries (ageFilterCache now m.cache) :=
      (sortKeyAsc_perm _ _).mem_iff.mp (hw ▸ List.mem_cons_self ..)
    obtain ⟨es, hget, hidx⟩ := indexedEntries_valid hndA w hwmem
    have hrem := sumLens_removeAtIndex hget hidx
    refine ⟨?_, ?_, ?_⟩
    · show ((removeAtIndex (ageFilterCache now m.cache) w.1 w.2.2).map
        fun p => p.2.length).sum ≤ maxEntriesCap
      omega
    · intro e he
      exact age_of_mem_ageFilter now m.cache e
        (mem_removeAtIndex _ _ _ e he)
    · exact nodup_keys_removeAtIndex hndA
  · rw [if_neg hover]
    refine ⟨?_, ?_, hndA⟩
    · show ((ageFilterCache now m.cache).map fun p => p.2.length).sum ≤
        maxEntriesCap
      omega
    · intro e he
      exact age_of_mem_ageFilter now m.cache e he

/-- One `store` call from a within-cap, key-disciplined state: the new
state is within the cap, has no over-age entry relative to the store's
time, and keeps keys distinct. -/
theorem store_inv (m : MemoryManager) (freshId : String) (now : Nat)
    (agentId tp content : String) (tags : List String)
    (hnd : NoDupKeys m.cache) (htot : totalEntries m ≤ maxEntriesCap) :
    NoDupKeys (m.store freshId now agentId tp content tags).cache ∧
    totalEntries (m.store freshId now agentId tp content tags) ≤
      maxEntriesCap ∧
    ∀ e ∈ allEntries (m.store freshId now agentId tp content tags),
      now - e.timestamp < maxAgeMs := by
  have hstore : m.store freshId now agentId tp content tags =
      MemoryManager.cleanup ⟨mapSet m.cache
        (if agentId = "" then "global" else agentId)
        ((mapGet m.cache (if agentId = "" then "global" else agentId)).getD []
          ++ [⟨freshId, agentId, now, tp, content, tags⟩])⟩ now := rfl
  rw [hstore]
  have hnd' : NoDupKeys (mapSet m.cache
      (if agentId = "" then "global" else agentId)
      ((mapGet m.cache (if agentId = "" then "global" else agentId)).getD []
        ++ [⟨freshId, agentId, now, tp, content, tags⟩])) :=
    nodup_keys_mapSet hnd
  have htot' : totalEntries ⟨mapSet m.cache
      (if agentId = "" then "global" else agentId)
      ((mapGet m.cache (if agentId = "" then "global" else agentId)).getD []
        ++ [⟨freshId, agentId, now, tp, content, tags⟩])⟩ ≤
      maxEntriesCap + 1 := by
    show ((mapSet m.cache _ _).map fun p => p.2.length).sum ≤ maxEntriesCap + 1
    rw [sumLens_store_push]
    unfold totalEntries at htot
    omega
  have h := cleanup_bounds _ now hnd' htot'
  exact ⟨h.2.2, h.1, h.2.1⟩

/-- One `store` request: the fresh entry id, the wall-clock time, and
the entry fields (`agentId` empty models a missing producer id). -/
structure StoreOp where
  freshId : String
  now : Nat
  agentId : String
  tp : String
  content : String
  tags : List String
deriving DecidableEq, Repr

def applyStore (m : MemoryManager) (op : StoreOp) : MemoryManager :=
  m.store op.freshId op.now op.agentId op.tp op.content op.tags

/-- The store after a sequence of `store` calls from the empty cache. -/
def runStores (ops : List StoreOp) : MemoryManager :=
  ops.foldl applyStore ⟨[]⟩

theorem runStores_inv (ops : List StoreOp) :
    NoDupKeys (runStores ops).cache ∧
    totalEntries (runStores ops) ≤ maxEntriesCap := by
  induction ops using List.reverseRecOn with
  | nil => exact ⟨List.nodup_nil, by simp [runStores, totalEntries]⟩
  | append_singleton ops op ih =>
    have hstep : runStores (ops ++ [op]) = applyStore (runStores ops) op := by
      simp [runStores, List.foldl_append]
    rw [hstep]
    have h := store_inv (runStores ops) op.freshId op.now op.agentId op.tp
      op.content op.tags ih.1 ih.2
    exact ⟨h.1, h.2.1⟩

/-- C8: after every store operation — for every sequence of stores from
the empty cache — the store's total entry count is at most the cap of
1000, and every remaining entry is younger than the 7-day maximum age
at the time of that store. -/
theorem C8_context_eviction (ops : List StoreOp) (op : StoreOp) :
    totalEntries (runStores (ops ++ [op])) ≤ maxEntriesCap ∧
    ∀ e ∈ allEntries (runStores (ops ++ [op])),
      op.now - e.timestamp < maxAgeMs := by
  have hstep : runStores (ops ++ [op]) = applyStore (runStores ops) op := by
    simp [runStores, List.foldl_append]
  rw [hstep]
  have hinv := runStores_inv ops
  have h := store_inv (runStores ops) op.freshId op.now op.agentId op.tp
    op.content op.tags hinv.1 hinv.2
  exact ⟨h.2.1, h.2.2⟩

/-! ## C9: context retrieval -/

theorem insKeyDesc_sorted {α : Type} (key : α → Nat) (x : α) {l : List α}
    (hl : SortedDesc key l) : SortedDesc key (insKeyDesc key x l) := by
  induction l with
  | nil => exact List.pairwise_singleton ..
  | cons y ys ih =>
    obtain ⟨hy, hys⟩ := List.pairwise_cons.mp hl
    by_cases h : key x ≤ key y
    · simp only [insKeyDesc, if_pos h]
      refine List.pairwise_cons.mpr ⟨?_, ih hys⟩
      intro z hz
      have hz' := (insKeyDesc_perm key x ys).mem_iff.mp hz
      rcases List.mem_cons.mp hz' with rfl | h2
      · exact h
      · exact hy z h2
    · simp only [insKeyDesc, if_neg h]
      refine List.pairwise_cons.mpr ⟨?_, hl⟩
      intro z hz
      rcases List.mem_cons.mp hz with rfl | h2
      · exact Nat.le_of_lt (Nat.lt_of_not_le h)
      · exact le_trans (hy z h2) (Nat.le_of_lt (Nat.lt_of_not_le h))

theorem sortKeyDesc_sorted {α : Type} (key : α → Nat) (l : List α) :
    SortedDesc key (sortKeyDesc key l) := by
  have hgen : ∀ (l' acc : List α), SortedDesc key acc →
      SortedDesc key (l'.foldl (fun a y => insKeyDesc key y a) acc) := by
    intro l'
    induction l' with
    | nil => intro acc h; exact h
    | cons x xs ih =>
      intro acc h
      exact ih (insKeyDesc key x acc) (insKeyDesc_sorted key x h)
  exact hgen l [] List.Pairwise.nil

/-- The summary `getContext` builds per entry (memory-manager.ts lines
86-92). -/
def summarize (e : MemoryEntry) : ContextItem :=
  ⟨e.type, takeStr e.content 200 ++ "...", e.timestamp⟩

/-- The entries of the store whose tags include the category. -/
def matchingEntries (m : MemoryManager) (mode : String) : List MemoryEntry :=
  (m.cache.flatMap Prod.snd).filter fun e => e.tags.contains mode

/-- C9: `getContext` returns the summaries (content truncated to 200
characters plus an ellipsis) of a sub-multiset `kept` of exactly the
entries tagged with the category, at most 10 of them, ordered newest
first, and every entry left out is no newer than any entry kept — i.e.
the 10 most recent matching entries.  The store itself is a read-only
input of the pure function. -/
theorem C9_getContext (m : MemoryManager) (mode : String) :
    ∃ kept dropped : List MemoryEntry,
      (kept ++ dropped).Perm (matchingEntries m mode) ∧
      m.getContext mode = kept.map summarize ∧
      (∀ e ∈ kept, e.tags.contains mode = true) ∧
      kept.length ≤ 10 ∧
      kept.Pairwise (fun a b => b.timestamp ≤ a.timestamp) ∧
      (∀ k ∈ kept, ∀ d ∈ dropped, d.timestamp ≤ k.timestamp) := by
  refine ⟨(sortKeyDesc (fun e => e.timestamp) (matchingEntries m mode)).take 10,
    (sortKeyDesc (fun e => e.timestamp) (matchingEntries m mode)).drop 10,
    ?_, ?_, ?_, ?_, ?_, ?_⟩
  · rw [List.take_append_drop]
    exact sortKeyDesc_perm _ _
  · rfl
  · intro e he
    have h1 : e ∈ sortKeyDesc (fun e => e.timestamp) (matchingEntries m mode) :=
      (List.take_sublist _ _).subset he
    have h2 : e ∈ matchingEntries m mode := (mem_sortKeyDesc _ _ _).mp h1
    exact (List.mem_filter.mp h2).2
  · exact List.length_take_le ..
  · have hs : SortedDesc (fun e : MemoryEntry => e.timestamp)
        (sortKeyDesc (fun e => e.timestamp) (matchingEntries m mode)) :=
      sortKeyDesc_sorted _ _
    exact List.Pairwise.sublist (List.take_sublist _ _) hs
  · have hs := sortKeyDesc_sorted (fun e => e.timestamp)
      (matchingEntries m mode)
    rw [← List.take_append_drop 10
      (sortKeyDesc (fun e => e.timestamp) (matchingEntries m mode))] at hs
    have := (List.pairwise_append.mp hs).2.2
    exact fun k hk d hd => this k hk d hd

end GeminiFlow
